import Mathlib

/-!
Verification of the string-matching engine (exact and approximate pattern
search over symbol sequences).  The algorithms of
`src/src/algorithms/{levenshtein,kmp,boyer_moore,native}.py` are embedded
shallowly: texts and patterns are lists of characters, Python lists are Lean
lists, Python integers are `Int` where negative values can occur and `Nat`
otherwise, and while-loops become fuelled or structurally recursive
functions.  The claims of the specification are then proved or refuted
against the embedding.  The file has two parts: all definitions first,
then all theorems.
-/

namespace SubSolvers

/-- Substitution cost used by every Levenshtein variant of
levenshtein.py: `0 if x == y else 1`. -/
def levCost (x y : Char) : Nat := if x = y then 0 else 1

/-- Inner loop (`for j in range(1, m + 1)`) of the Wagner-Fischer row fill of
`levenshtein_distance`: walks the second string together with the previous
row and produces the cells `curr[1..m]` of the current row; `left` is the
cell `curr[j-1]` computed in the previous iteration.  Each cell is
`min(prev[j] + 1, curr[j-1] + 1, prev[j-1] + cost)`. -/
def levRowGo (ai : Char) : List Char → List Nat → Nat → List Nat
  | [], _, _ => []
  | _ :: _, [], _ => []
  | bj :: bs, diag :: prest, left =>
    let v := min (prest.headD 0 + 1) (min (left + 1) (diag + levCost ai bj))
    v :: levRowGo ai bs prest v

/-- Row `i` (cells `0..m`) of the `levenshtein_distance` DP table, computed
from row `i-1`; cell 0 is `dp[i][0] = i`. -/
def levNextRow (ai : Char) (b : List Char) (prev : List Nat) (i : Nat) : List Nat :=
  i :: levRowGo ai b prev i

/-- Rows `1..n` (`for i in range(1, n + 1)`) of the `levenshtein_distance`
DP table, in order. -/
def levTableGo (b : List Char) : List Char → List Nat → Nat → List (List Nat)
  | [], _, _ => []
  | ai :: arest, prev, i =>
    levNextRow ai b prev i :: levTableGo b arest (levNextRow ai b prev i) (i + 1)

/-- `levenshtein_distance(a, b)` from levenshtein.py: full DP table of
`(n+1) x (m+1)` cells with `dp[i][0] = i`, `dp[0][j] = j`, and the
Wagner-Fischer recurrence; the result is `dp[n][m]`. -/
def levenshtein_distance (a b : List Char) : Nat :=
  if a.length = 0 then b.length
  else if b.length = 0 then a.length
  else
    ((List.range (b.length + 1) :: levTableGo b a (List.range (b.length + 1)) 1).getLastD
      []).getD b.length 0

/-- `levenshtein_search(text, pattern, max_distance)` from levenshtein.py:
the naive full-table sliding-window strategy.  Collecting the accepted
window starts in ascending order is a filter over `range(n - m + 1)`. -/
def levenshtein_search (text pattern : List Char) (max_distance : Int) : List Nat :=
  if pattern.length = 0 then List.range (text.length + 1)
  else if text.length < pattern.length then []
  else
    (List.range (text.length - pattern.length + 1)).filter fun start =>
      (levenshtein_distance ((text.drop start).take pattern.length) pattern : Int)
        ≤ max_distance

/-- Inner loop (`for j in range(1, m + 1)`) of the rolling-row fill of
`levenshtein_search_optimized`; same recurrence as `levRowGo`. -/
def optRowGo (si : Char) : List Char → List Nat → Nat → List Nat
  | [], _, _ => []
  | _ :: _, [], _ => []
  | pj :: ps, diag :: prest, left =>
    let v := min (prest.headD 0 + 1) (min (left + 1) (diag + levCost si pj))
    v :: optRowGo si ps prest v

/-- Window loop (`for i in range(1, m + 1)`) of
`levenshtein_search_optimized`: rolls the two DP rows over the window
characters (`prev, curr = curr, prev`); returns the final row. -/
def optRowsGo (pattern : List Char) : List Char → List Nat → Nat → List Nat
  | [], prev, _ => prev
  | si :: srest, prev, i => optRowsGo pattern srest (i :: optRowGo si pattern prev i) (i + 1)

/-- Edit distance between one text window and the pattern as computed by
the rolling two-row DP of `levenshtein_search_optimized`: the cell
`prev[m]` after the last roll. -/
def optWindowDist (sub pattern : List Char) : Nat :=
  (optRowsGo pattern sub (List.range (pattern.length + 1)) 1).getD pattern.length 0

/-- `levenshtein_search_optimized(text, pattern, max_distance)` from
levenshtein.py: rolling two-row sliding-window strategy. -/
def levenshtein_search_optimized (text pattern : List Char) (max_distance : Int) : List Nat :=
  if pattern.length = 0 then List.range (text.length + 1)
  else if text.length < pattern.length then []
  else
    (List.range (text.length - pattern.length + 1)).filter fun start =>
      (optWindowDist ((text.drop start).take pattern.length) pattern : Int) ≤ max_distance

/-- Inner loop of `count_comparisons_levenshtein`: the rolling-row fill with
`comparisons += 1` executed once per DP cell, before the cost evaluation. -/
def ccLevRowGo (ti : Char) : List Char → List Nat → Nat → Nat → List Nat × Nat
  | [], _, _, c => ([], c)
  | _ :: _, [], _, c => ([], c)
  | pj :: ps, diag :: prest, left, c =>
    let v := min (prest.headD 0 + 1) (min (left + 1) (diag + levCost ti pj))
    let r := ccLevRowGo ti ps prest v (c + 1)
    (v :: r.1, r.2)

/-- Window loop of `count_comparisons_levenshtein` (`for i in range(1, m+1)`,
`cnt` remaining iterations): reads `text[start + i - 1]` directly and rolls
the rows, threading the comparison counter. -/
def ccLevRowsGo (text pattern : List Char) (start : Nat) :
    Nat → Nat → List Nat → Nat → List Nat × Nat
  | _, 0, prev, c => (prev, c)
  | i, cnt + 1, prev, c =>
    let r := ccLevRowGo (text.getD (start + i - 1) default) pattern prev i c
    ccLevRowsGo text pattern start (i + 1) cnt (i :: r.1) r.2

/-- `count_comparisons_levenshtein(text, pattern, max_distance)` from
levenshtein.py: the rolling-row search with a comparison counter threaded
through all windows. -/
def count_comparisons_levenshtein (text pattern : List Char) (max_distance : Int) :
    List Nat × Nat :=
  if pattern.length = 0 then (List.range (text.length + 1), 0)
  else if text.length < pattern.length then ([], 0)
  else
    (List.range (text.length - pattern.length + 1)).foldl
      (fun acc start =>
        let r := ccLevRowsGo text pattern start 1 pattern.length
          (List.range (pattern.length + 1)) acc.2
        (if (r.1.getD pattern.length 0 : Int) ≤ max_distance then acc.1 ++ [start]
         else acc.1, r.2))
      ([], 0)

/-- Python list assignment `l[j] = v` for an integer index `j`: negative
indices wrap around once; an index outside `[-len(l), len(l))` raises
IndexError, modelled as `none`. -/
def pySet (l : List Int) (j : Int) (v : Int) : Option (List Int) :=
  if 0 ≤ j then
    if j < (l.length : Int) then some (l.set j.toNat v) else none
  else
    if 0 ≤ j + (l.length : Int) then some (l.set (j + (l.length : Int)).toNat v) else none

/-- `start_j = max(1, i - max_distance)` of `levenshtein_search_diagonal`
(always at least 1, hence a natural number). -/
def diagStartJ (d : Int) (i : Nat) : Nat := max 1 ((i : Int) - d).toNat

/-- `end_j = min(m, i + max_distance)` of `levenshtein_search_diagonal`
(may be negative, hence an integer). -/
def diagEndJ (m : Nat) (d : Int) (i : Nat) : Int := min (m : Int) ((i : Int) + d)

/-- The row buffer of `levenshtein_search_diagonal` just before the band
loop of row `i` runs: `curr = [0] * (m + 1)` followed by `curr[0] = i`. -/
def diagInitRow (m i : Nat) : List Int :=
  (List.replicate (m + 1) (0 : Int)).set 0 (i : Int)

/-- Band loop (`for j in range(start_j, end_j + 1)`) of
`levenshtein_search_diagonal`: `cnt` remaining iterations starting at
column `j`; all indices touched lie inside `0..m`, so Lean list reads and
writes match the Python ones. -/
def diagBandGo (ti : Char) (p : List Char) (prev : List Int) :
    Nat → Nat → List Int → List Int
  | _, 0, curr => curr
  | j, cnt + 1, curr =>
    let cost : Int := if ti = p.getD (j - 1) default then 0 else 1
    let ins := curr.getD (j - 1) 0 + 1
    let del := prev.getD j 0 + 1
    let subst := prev.getD (j - 1) 0 + cost
    diagBandGo ti p prev (j + 1) cnt (curr.set j (min ins (min del subst)))

/-- Sentinel fill loops of `levenshtein_search_diagonal`
(`curr[j] = max_distance + 5` for `j` in an integer range): `cnt` remaining
assignments starting at index `j`, with Python assignment semantics
(`pySet`), so an out-of-range index aborts the whole call. -/
def diagFillGo (v : Int) : Int → Nat → List Int → Option (List Int)
  | _, 0, curr => some curr
  | j, cnt + 1, curr =>
    match pySet curr j v with
    | none => none
    | some curr2 => diagFillGo v (j + 1) cnt curr2

/-- Text scan (`for i in range(1, n + 1)`) of `levenshtein_search_diagonal`:
`cnt` remaining rows starting at row `i`.  Each row fills the band, then
sentinel-fills `range(1, start_j)` and `range(end_j + 1, m + 1)`, then
records a match offset `i - m` in `ms` when `i >= m and curr[m] <= max_distance`. -/
def diagGo (t p : List Char) (d : Int) : Nat → Nat → List Int → List Nat → Option (List Nat)
  | _, 0, _, ms => some ms
  | i, cnt + 1, prev, ms =>
    let m := p.length
    let sj := diagStartJ d i
    let ej := diagEndJ m d i
    let curr1 := diagBandGo (t.getD (i - 1) default) p prev sj
      ((ej + 1 - (sj : Int)).toNat) (diagInitRow m i)
    match diagFillGo (d + 5) 1 (sj - 1) curr1 with
    | none => none
    | some curr2 =>
      match diagFillGo (d + 5) (ej + 1) (((m : Int) - ej).toNat) curr2 with
      | none => none
      | some curr3 =>
        diagGo t p d (i + 1) cnt curr3
          (if m ≤ i ∧ curr3.getD m 0 ≤ d then ms ++ [i - m] else ms)

/-- `levenshtein_search_diagonal(text, pattern, max_distance)` from
levenshtein.py: the banded single-pass strategy.  The result is an
`Option`: `none` models the uncaught Python IndexError raised by the
sentinel fill loops when an index leaves the row buffer. -/
def levenshtein_search_diagonal (text pattern : List Char) (max_distance : Int) :
    Option (List Nat) :=
  if pattern.length = 0 then some (List.range (text.length + 1))
  else if text.length < pattern.length then some []
  else
    diagGo text pattern max_distance 1 text.length
      ((List.range (pattern.length + 1)).map (fun k : Nat => (k : Int))) []


/-- The while loop of `compute_lps_table` in kmp.py, with fuel (each
iteration either advances the scan index `i` or strictly decreases the
fallback index `j`, so `2 * len(pattern)` fuel always suffices; this is
proved where the table is used). -/
def lpsGo (p : List Char) : Nat → Nat → Nat → List Nat → List Nat
  | 0, _, _, lps => lps
  | fuel + 1, i, j, lps =>
    if i < p.length then
      if p.getD i default = p.getD j default then
        lpsGo p fuel (i + 1) (j + 1) (lps.set i (j + 1))
      else if j ≠ 0 then
        lpsGo p fuel i (lps.getD (j - 1) 0) lps
      else
        lpsGo p fuel (i + 1) j (lps.set i 0)
    else lps

/-- `compute_lps_table(pattern)` from kmp.py: `lps = [0] * length`,
`j = 0`, `i = 1`, then the scan loop. -/
def compute_lps_table (p : List Char) : List Nat :=
  lpsGo p (2 * p.length) 1 0 (List.replicate p.length 0)

/-- The while loop of `kmp_search` in kmp.py, with fuel: one full loop body
per step.  The body first optionally advances both indices on a symbol
match, then either records a match (`j == m`), or handles a mismatch at the
(possibly advanced) position, or just continues. -/
def kmpGo (t p : List Char) (lps : List Nat) : Nat → Nat → Nat → List Nat → List Nat
  | 0, _, _, occ => occ
  | fuel + 1, i, j, occ =>
    if i < t.length then
      let i2 := if p.getD j default = t.getD i default then i + 1 else i
      let j2 := if p.getD j default = t.getD i default then j + 1 else j
      if j2 = p.length then
        kmpGo t p lps fuel i2 (lps.getD (j2 - 1) 0) (occ ++ [i2 - j2])
      else if i2 < t.length ∧ p.getD j2 default ≠ t.getD i2 default then
        if j2 ≠ 0 then kmpGo t p lps fuel i2 (lps.getD (j2 - 1) 0) occ
        else kmpGo t p lps fuel (i2 + 1) j2 occ
      else kmpGo t p lps fuel i2 j2 occ
    else occ

/-- `kmp_search(text, pattern)` from kmp.py. -/
def kmp_search (text pattern : List Char) : List Nat :=
  if pattern.length = 0 then []
  else if text.length < pattern.length then []
  else kmpGo text pattern (compute_lps_table pattern) (2 * text.length + 1) 0 0 []

/-- The while loop of `count_comparisons_kmp` in kmp.py, with fuel: exactly
one symbol comparison per loop iteration. -/
def ccKmpGo (t p : List Char) (lps : List Nat) :
    Nat → Nat → Nat → List Nat → Nat → List Nat × Nat
  | 0, _, _, occ, c => (occ, c)
  | fuel + 1, i, j, occ, c =>
    if i < t.length then
      if p.getD j default = t.getD i default then
        if j + 1 = p.length then
          ccKmpGo t p lps fuel (i + 1) (lps.getD (p.length - 1) 0)
            (occ ++ [i + 1 - p.length]) (c + 1)
        else ccKmpGo t p lps fuel (i + 1) (j + 1) occ (c + 1)
      else if j ≠ 0 then ccKmpGo t p lps fuel i (lps.getD (j - 1) 0) occ (c + 1)
      else ccKmpGo t p lps fuel (i + 1) j occ (c + 1)
    else (occ, c)

/-- `count_comparisons_kmp(text, pattern)` from kmp.py. -/
def count_comparisons_kmp (text pattern : List Char) : List Nat × Nat :=
  if pattern.length = 0 ∨ text.length < pattern.length then ([], 0)
  else ccKmpGo text pattern (compute_lps_table pattern) (2 * text.length + 1) 0 0 [] 0

/-- The pattern occurs in the text at offset `s`:
`text[s .. s + len(pattern) - 1] == pattern`. -/
def matchAt (t p : List Char) (s : Nat) : Prop := (t.drop s).take p.length = p

instance matchAt.dec (t p : List Char) (s : Nat) : Decidable (matchAt t p s) := by
  unfold matchAt; infer_instance

/-- The brute-force reference MatchSet: the ascending list of all offsets
at which the pattern occurs (overlaps included). -/
def matchOffsets (t p : List Char) : List Nat :=
  (List.range (t.length + 1 - p.length)).filter fun s => decide (matchAt t p s)

/-- The occurrences that lie entirely within the first `i` text symbols;
the KMP scan has recorded exactly these when its text index is `i`. -/
def occUpTo (t p : List Char) (i : Nat) : List Nat :=
  (List.range (t.length + 1 - p.length)).filter fun s =>
    decide (matchAt t p s) && decide (s + p.length ≤ i)

/-- Length of the longest proper border (prefix that is also a suffix)
of `x`; the value `compute_lps_table` stores for each pattern prefix. -/
def bordLen (x : List Char) : Nat :=
  Nat.findGreatest (fun k => x.take k <:+ x) (x.length - 1)


/-- Python `text.find(pattern, start)`: the smallest index `idx >= start`
with `text[idx : idx + len(pattern)] == pattern` (an index within
`0..len(text)`), or `none` when there is no such index (Python: -1).
Modelled as the head of the ascending list of candidates. -/
def pyFind (t p : List Char) (start : Nat) : Option Nat :=
  ((List.range (t.length + 1)).filter fun s2 =>
    decide (start ≤ s2) && decide (matchAt t p s2)).head?

/-- The while loop of `native_search` in native.py, with fuel: find the next
occurrence from `start`, record it, continue from `idx + 1`. -/
def nativeGo (t p : List Char) : Nat → Nat → List Nat → List Nat
  | 0, _, ms => ms
  | fuel + 1, start, ms =>
    match pyFind t p start with
    | none => ms
    | some idx => nativeGo t p fuel (idx + 1) (ms ++ [idx])

/-- `native_search(text, pattern)` from native.py: repeated `find` with the
search start just past the previous hit, so overlapping occurrences are all
reported, in ascending order. -/
def native_search (t p : List Char) : List Nat :=
  nativeGo t p (t.length + 2) 0 []


/-- `bad_character_table(pattern)` from boyer_moore.py: dict from symbol to
its rightmost 0-indexed position in the pattern, built by a left-to-right
scan (later occurrences overwrite earlier ones); `dict.get(c, -1)` is
modelled by making the table a total function defaulting to -1. -/
def bad_character_table (p : List Char) : Char → Int :=
  (List.range p.length).foldl
    (fun f i => fun c => if c = p.getD i default then (i : Int) else f c)
    (fun _ => (-1 : Int))

/-- The inner while loop of `good_suffix_table` (case 2 preprocessing):
`while j <= m and pattern[i-1] != pattern[j-1]: (record shift); j = border[j]`.
With fuel; `j` strictly increases along the border chain, so `m + 2` fuel
always suffices (proved where used).  Returns the final `j` and the
updated shift array. -/
def gsInnerGo (p : List Char) (i : Nat) (border : List Nat) :
    Nat → Nat → List Nat → Nat × List Nat
  | 0, j, shift => (j, shift)
  | fuel + 1, j, shift =>
    if j ≤ p.length ∧ p.getD (i - 1) default ≠ p.getD (j - 1) default then
      gsInnerGo p i border fuel (border.getD j 0)
        (if shift.getD (j - 1) 0 = p.length then shift.set (j - 1) (j - i) else shift)
    else (j, shift)

/-- The outer while loop of `good_suffix_table` (phase 1):
`while i > 0: (inner); i -= 1; j -= 1; border[i] = j`.  Returns the final
shift and border arrays. -/
def gsOuterGo (p : List Char) : Nat → Nat → Nat → List Nat → List Nat → List Nat × List Nat
  | 0, _, _, shift, border => (shift, border)
  | fuel + 1, i, j, shift, border =>
    if 0 < i then
      let r := gsInnerGo p i border (p.length + 2) j shift
      gsOuterGo p fuel (i - 1) (r.1 - 1) r.2 (border.set (i - 1) (r.1 - 1))
    else (shift, border)

/-- Phase 2 of `good_suffix_table`: `j = border[0]; for i in range(m):
if shift[i] == m: shift[i] = j; if i == j: j = border[j]`. -/
def gsPhase2Go (border : List Nat) (m : Nat) : Nat → Nat → Nat → List Nat → List Nat
  | 0, _, _, shift => shift
  | cnt + 1, i, j, shift =>
    gsPhase2Go border m cnt (i + 1) (if i = j then border.getD j 0 else j)
      (if shift.getD i 0 = m then shift.set i j else shift)

/-- `good_suffix_table(pattern)` from boyer_moore.py: `shift = [m] * m`,
`border = [0] * (m + 1)`, `i = m; j = m + 1; border[i] = j`, phase 1,
then phase 2 starting from `j = border[0]`. -/
def good_suffix_table (p : List Char) : List Nat :=
  let m := p.length
  let r := gsOuterGo p (m + 1) m (m + 1) (List.replicate m m)
    ((List.replicate (m + 1) 0).set m (m + 1))
  gsPhase2Go r.2 m m 0 (r.2.getD 0 0) r.1

/-- The right-to-left window scan of `boyer_moore_search`
(`while j >= 0 and pattern[j] == text[shift_amount + j]: j -= 1`), called
with `k = m`: returns `none` on a full match (`j` ran below 0) and
`some j` for the first mismatch position. -/
def bmScan (t p : List Char) (s : Nat) : Nat → Option Nat
  | 0 => none
  | k + 1 => if p.getD k default = t.getD (s + k) default then bmScan t p s k else some k

/-- The main loop of `boyer_moore_search` (`while shift_amount <= n - m`),
with fuel; every iteration advances the shift by at least 1 (the
good-suffix entries are positive), so `n + 2` fuel always suffices.
On a full match the shift advances by `good_suffix[0]` when text remains
beyond the window, else by 1; on a mismatch at `j` it advances by
`max(j - bad_char.get(text[s+j], -1), good_suffix[j])`. -/
def bmGo (t p : List Char) (bc : Char → Int) (gs : List Nat) :
    Nat → Nat → List Nat → List Nat
  | 0, _, ms => ms
  | fuel + 1, s, ms =>
    if s + p.length ≤ t.length then
      match bmScan t p s p.length with
      | none =>
        bmGo t p bc gs fuel
          (s + (if s + p.length < t.length then gs.getD 0 0 else 1)) (ms ++ [s])
      | some j =>
        bmGo t p bc gs fuel
          (s + (max ((j : Int) - bc (t.getD (s + j) default)) ((gs.getD j 0 : Int))).toNat) ms
    else ms

/-- `boyer_moore_search(text, pattern)` from boyer_moore.py. -/
def boyer_moore_search (text pattern : List Char) : List Nat :=
  if pattern.length = 0 then []
  else if text.length < pattern.length then []
  else
    bmGo text pattern (bad_character_table pattern) (good_suffix_table pattern)
      (text.length + 2) 0 []

/-- The instrumented right-to-left window scan of
`count_comparisons_boyer_moore`: one comparison counted per inspected
position, including the mismatching one. -/
def ccBmScan (t p : List Char) (s : Nat) : Nat → Nat → Option Nat × Nat
  | 0, c => (none, c)
  | k + 1, c =>
    if p.getD k default = t.getD (s + k) default then ccBmScan t p s k (c + 1)
    else (some k, c + 1)

/-- The main loop of `count_comparisons_boyer_moore`, with fuel. -/
def ccBmGo (t p : List Char) (bc : Char → Int) (gs : List Nat) :
    Nat → Nat → List Nat → Nat → List Nat × Nat
  | 0, _, ms, c => (ms, c)
  | fuel + 1, s, ms, c =>
    if s + p.length ≤ t.length then
      match ccBmScan t p s p.length c with
      | (none, c2) =>
        ccBmGo t p bc gs fuel
          (s + (if s + p.length < t.length then gs.getD 0 0 else 1)) (ms ++ [s]) c2
      | (some j, c2) =>
        ccBmGo t p bc gs fuel
          (s + (max ((j : Int) - bc (t.getD (s + j) default))
            ((gs.getD j 0 : Int))).toNat) ms c2
    else (ms, c)

/-- `count_comparisons_boyer_moore(text, pattern)` from boyer_moore.py. -/
def count_comparisons_boyer_moore (text pattern : List Char) : List Nat × Nat :=
  if pattern.length = 0 then ([], 0)
  else if text.length < pattern.length then ([], 0)
  else
    ccBmGo text pattern (bad_character_table pattern) (good_suffix_table pattern)
      (text.length + 2) 0 [] 0

/-- `border[k] = v` says: `pattern[v..m)` is the widest border of the
suffix `pattern[k..m)`, encoded by minimality of its start `v`.  This is
the correctness statement for the border array of `good_suffix_table`
(with the sentinel `m + 1` at `k = m`). -/
def isFSuf (p : List Char) (k v : Nat) : Prop :=
  if k = p.length then v = p.length + 1
  else k < v ∧ v ≤ p.length ∧ (p.drop v <+: p.drop k) ∧
    ∀ u, k < u → u < v → ¬ (p.drop u <+: p.drop k)

/-- A shift `r` at mismatch position `q` is consistent with the matched
suffix `pattern[q+1..m)` and the strong mismatch condition: the occurrence
of the pattern `r` positions further right is not yet ruled out by what
the scan has seen.  Safety of the good-suffix table means every skipped
shift is inconsistent. -/
def validR (p : List Char) (r q : Nat) : Prop :=
  (∀ k, q < k → k < p.length → r ≤ k →
    p.getD (k - r) default = p.getD k default) ∧
  (r ≤ q → p.getD (q - r) default ≠ p.getD q default)


/-- At outer phase-1 index `i2` with mismatch position `q`: the suffix
`pattern[q+1..m)` recurs at `i2` and the preceding symbols differ.  This is
exactly the situation in which phase 1 records the shift `q + 1 - i2`. -/
def validAt (p : List Char) (i2 q : Nat) : Prop :=
  (p.drop (q + 1) <+: p.drop i2) ∧ p.getD (i2 - 1) default ≠ p.getD q default


/-- Reference recursive Levenshtein distance (peeling first characters):
the quantity the DP table of levenshtein.py computes.  Used as the
intermediate object for the metric laws. -/
def levR : List Char → List Char → Nat
  | [], ys => ys.length
  | _ :: xs, [] => xs.length + 1
  | x :: xs, y :: ys =>
    min (levR xs (y :: ys) + 1) (min (levR (x :: xs) ys + 1) (levR xs ys + levCost x y))
termination_by a b => a.length + b.length

/-- Edit scripts: `EditN n a b` says some aligned sequence of insertions,
deletions and substitutions of total cost `n` rewrites `a` into `b`
(a copy is a substitution of cost 0). -/
inductive EditN : Nat → List Char → List Char → Prop
  | nil : EditN 0 [] []
  | ins : ∀ (y : Char) {n : Nat} {a b : List Char}, EditN n a b → EditN (n + 1) a (y :: b)
  | del : ∀ (x : Char) {n : Nat} {a b : List Char}, EditN n a b → EditN (n + 1) (x :: a) b
  | sub : ∀ (x y : Char) {n : Nat} {a b : List Char},
      EditN n a b → EditN (n + levCost x y) (x :: a) (y :: b)

/-! ### Theorems -/

theorem optRowGo_eq_levRowGo (c : Char) :
    ∀ (b : List Char) (prev : List Nat) (left : Nat),
      optRowGo c b prev left = levRowGo c b prev left := by
  intro b
  induction b with
  | nil => intro prev left; rfl
  | cons bj bs ih =>
    intro prev left
    cases prev with
    | nil => rfl
    | cons diag prest => simp only [optRowGo, levRowGo, ih]

theorem levTableGo_getLast (b : List Char) :
    ∀ (a : List Char) (prev : List Nat) (i : Nat),
      (levTableGo b a prev i).getLastD prev = optRowsGo b a prev i := by
  intro a
  induction a with
  | nil => intro prev i; rfl
  | cons ai arest ih =>
    intro prev i
    rw [levTableGo, optRowsGo, List.getLastD_cons, ih]
    simp only [levNextRow, optRowGo_eq_levRowGo]

theorem levenshtein_distance_eq_optWindowDist (sub pattern : List Char)
    (h : sub.length ≠ 0) :
    levenshtein_distance sub pattern = optWindowDist sub pattern := by
  cases hp : pattern.length with
  | zero =>
    -- both sides compute the length of sub
    rw [levenshtein_distance, if_neg h, if_pos hp]
    rw [optWindowDist, hp]
    cases sub with
    | nil => simp at h
    | cons s srest =>
      -- with an empty pattern every row is the singleton [i]; cell 0 of the
      -- final row is the length of sub
      have key : ∀ (a : List Char) (prev : List Nat) (i : Nat),
          (optRowsGo pattern a prev i).getD 0 0 =
            if a.length = 0 then prev.getD 0 0 else a.length + i - 1 := by
        intro a
        induction a with
        | nil => intro prev i; simp [optRowsGo]
        | cons x xs ih =>
          intro prev i
          rw [optRowsGo, ih]
          rcases pattern with _ | ⟨p0, ps⟩
          · by_cases hxs : xs.length = 0
            · simp [hxs, optRowGo]
            · simp [hxs]
          · simp at hp
      rw [key]
      simp
  | succ mm =>
    have hpne : pattern.length ≠ 0 := by omega
    rw [levenshtein_distance, if_neg h, if_neg hpne, optWindowDist]
    rw [List.getLastD_cons, levTableGo_getLast]

/-- C2: the naive full-table strategy and the rolling two-row strategy
return identical match lists on every input (stated for all integer
maxDistance, in particular every maxDistance greater or equal 0). -/
theorem claim_C2_naive_eq_rolling (text pattern : List Char) (max_distance : Int) :
    levenshtein_search text pattern max_distance
      = levenshtein_search_optimized text pattern max_distance := by
  rw [levenshtein_search, levenshtein_search_optimized]
  by_cases hm : pattern.length = 0
  · simp [hm]
  · by_cases hn : text.length < pattern.length
    · simp [hm, hn]
    · rw [if_neg hm, if_neg hm, if_neg hn, if_neg hn]
      apply List.filter_congr
      intro start hstart
      have hlen : ((text.drop start).take pattern.length).length ≠ 0 := by
        rw [List.length_take, List.length_drop]
        rw [List.mem_range] at hstart
        omega
      rw [levenshtein_distance_eq_optWindowDist _ _ hlen]

/-- C10: with the empty pattern, every approximate strategy returns the
full list of offsets `0..len(T)` for every integer maxDistance, negative
values included; the threshold is never consulted. -/
theorem claim_C10_empty_pattern (t : List Char) (d : Int) :
    levenshtein_search t [] d = List.range (t.length + 1)
      ∧ levenshtein_search_optimized t [] d = List.range (t.length + 1)
      ∧ levenshtein_search_diagonal t [] d = some (List.range (t.length + 1))
      ∧ count_comparisons_levenshtein t [] d = (List.range (t.length + 1), 0) := by
  refine ⟨rfl, rfl, rfl, rfl⟩


theorem pyIntGetD_ge {l : List Int} {b : Int} (hb : b ≤ 0)
    (h : ∀ v ∈ l, b ≤ v) (n : Nat) : b ≤ l.getD n 0 := by
  by_cases hn : n < l.length
  · rw [List.getD_eq_getElem l 0 hn]
    exact h _ (List.getElem_mem hn)
  · rw [List.getD_eq_default]
    · exact hb
    · omega

theorem set_all_ge {l : List Int} {b v : Int} (h : ∀ x ∈ l, b ≤ x) (hv : b ≤ v)
    (n : Nat) : ∀ x ∈ l.set n v, b ≤ x := by
  intro x hx
  rcases List.mem_or_eq_of_mem_set hx with h1 | h2
  · exact h x h1
  · omega

theorem diagInitRow_all_ge {d : Int} (m i : Nat) :
    ∀ v ∈ diagInitRow m i, min 0 (d + 5) ≤ v := by
  apply set_all_ge
  · intro x hx
    rw [List.eq_of_mem_replicate hx]
    exact min_le_left _ _
  · have : (0 : Int) ≤ (i : Int) := Int.natCast_nonneg i
    have := min_le_left (0 : Int) (d + 5)
    omega

theorem diagBandGo_all_ge {b : Int} (hb : b ≤ 0) (ti : Char) (p : List Char)
    (prev : List Int) (hprev : ∀ v ∈ prev, b ≤ v) :
    ∀ (cnt j : Nat) (curr : List Int), (∀ v ∈ curr, b ≤ v) →
      ∀ v ∈ diagBandGo ti p prev j cnt curr, b ≤ v := by
  intro cnt
  induction cnt with
  | zero => intro j curr hcurr; exact hcurr
  | succ k ih =>
    intro j curr hcurr
    rw [diagBandGo]
    apply ih
    apply set_all_ge hcurr
    have h1 := pyIntGetD_ge hb hcurr (j - 1)
    have h2 := pyIntGetD_ge hb hprev j
    have h3 := pyIntGetD_ge hb hprev (j - 1)
    have hc : (0 : Int) ≤ if ti = p.getD (j - 1) default then 0 else 1 := by
      split <;> omega
    simp only [le_min_iff]
    omega

theorem diagFillGo_all_ge {b v : Int} (hv : b ≤ v) :
    ∀ (cnt : Nat) (j : Int) (curr : List Int), (∀ x ∈ curr, b ≤ x) →
      diagFillGo v j cnt curr = none ∨
        ∃ curr2, diagFillGo v j cnt curr = some curr2 ∧ ∀ x ∈ curr2, b ≤ x := by
  intro cnt
  induction cnt with
  | zero => intro j curr hcurr; exact Or.inr ⟨curr, rfl, hcurr⟩
  | succ k ih =>
    intro j curr hcurr
    rw [diagFillGo]
    rcases hset : pySet curr j v with _ | curr2
    · exact Or.inl rfl
    · have hc2 : ∀ x ∈ curr2, b ≤ x := by
        rw [pySet] at hset
        split at hset
        · split at hset
          · cases hset; exact set_all_ge hcurr hv _
          · cases hset
        · split at hset
          · cases hset; exact set_all_ge hcurr hv _
          · cases hset
      exact ih (j + 1) curr2 hc2

theorem diagGo_neg {t p : List Char} {d : Int} (hd : d < 0) :
    ∀ (cnt i : Nat) (prev : List Int) (ms : List Nat),
      (∀ v ∈ prev, min 0 (d + 5) ≤ v) →
      diagGo t p d i cnt prev ms = none ∨ diagGo t p d i cnt prev ms = some ms := by
  have hb : min 0 (d + 5) ≤ 0 := min_le_left _ _
  have hbv : min 0 (d + 5) ≤ d + 5 := min_le_right _ _
  intro cnt
  induction cnt with
  | zero => intro i prev ms _; exact Or.inr rfl
  | succ k ih =>
    intro i prev ms hprev
    rw [diagGo]
    have hband : ∀ v ∈ diagBandGo (t.getD (i - 1) default) p prev (diagStartJ d i)
        ((diagEndJ p.length d i + 1 - (diagStartJ d i : Int)).toNat) (diagInitRow p.length i),
        min 0 (d + 5) ≤ v :=
      diagBandGo_all_ge hb _ p prev hprev _ _ _ (diagInitRow_all_ge _ _)
    rcases diagFillGo_all_ge hbv ((diagStartJ d i) - 1) 1 _ hband with h1 | ⟨c2, h1, hc2⟩
    · simp only [h1]; exact Or.inl trivial
    · simp only [h1]
      rcases diagFillGo_all_ge hbv (((p.length : Int) - diagEndJ p.length d i).toNat)
          (diagEndJ p.length d i + 1) _ hc2 with h2 | ⟨c3, h2, hc3⟩
      · simp only [h2]; exact Or.inl trivial
      · simp only [h2]
        have hno : ¬ (p.length ≤ i ∧ c3.getD p.length 0 ≤ d) := by
          rintro ⟨-, hle⟩
          have := pyIntGetD_ge hb hc3 p.length
          omega
        rw [if_neg hno]
        exact ih (i + 1) c3 ms hc3

/-- C9 counterexample: at text "A", pattern "A", maxDistance = -1 all three
approximate strategies return an ordinary MatchSet value instead of
rejecting the call with an InvalidArgument error.  (In the embedding a
rejected call could only be an aborted one; the banded strategy returns
`some`, i.e. completes normally.) -/
theorem claim_C9_counterexample :
    levenshtein_search (['A']) (['A']) (-1) = ([] : List Nat)
      ∧ levenshtein_search_optimized (['A']) (['A']) (-1) = ([] : List Nat)
      ∧ levenshtein_search_diagonal (['A']) (['A']) (-1) = some ([] : List Nat) := by
  refine ⟨by decide, by decide, by decide⟩

/-- C9 amended: negative maxDistance is not validated.  With maxDistance
less than 0 and a non-empty pattern the naive and rolling-row strategies
return the empty MatchSet as an ordinary result, and the banded strategy
either returns the empty MatchSet or aborts with an uncaught IndexError;
no strategy rejects with InvalidArgument. -/
theorem claim_C9_amended (t p : List Char) (d : Int) (hd : d < 0) (hp : p ≠ []) :
    levenshtein_search t p d = []
      ∧ levenshtein_search_optimized t p d = []
      ∧ (levenshtein_search_diagonal t p d = some [] ∨
          levenshtein_search_diagonal t p d = none) := by
  have hm0 : p.length ≠ 0 := by simpa using hp
  refine ⟨?_, ?_, ?_⟩
  · rw [levenshtein_search, if_neg hm0]
    split
    · rfl
    · apply List.filter_eq_nil_iff.2
      intro s hs
      simp only [decide_eq_true_eq, not_le]
      have : (0 : Int) ≤ (levenshtein_distance ((t.drop s).take p.length) p : Int) :=
        Int.natCast_nonneg _
      omega
  · rw [levenshtein_search_optimized, if_neg hm0]
    split
    · rfl
    · apply List.filter_eq_nil_iff.2
      intro s hs
      simp only [decide_eq_true_eq, not_le]
      have : (0 : Int) ≤ (optWindowDist ((t.drop s).take p.length) p : Int) :=
        Int.natCast_nonneg _
      omega
  · rw [levenshtein_search_diagonal, if_neg hm0]
    split
    · exact Or.inl rfl
    · have hinit : ∀ v ∈ (List.range (p.length + 1)).map (fun k : Nat => (k : Int)),
          min 0 (d + 5) ≤ v := by
        intro v hv
        rcases List.mem_map.1 hv with ⟨k, -, hk⟩
        have h0 : (0 : Int) ≤ v := by rw [← hk]; exact Int.natCast_nonneg _
        have := min_le_left (0 : Int) (d + 5)
        omega
      rcases diagGo_neg hd t.length 1 _ [] hinit with h | h
      · exact Or.inr h
      · exact Or.inl h


/-- C3 (failing-input evaluation): at text "AB", pattern "AB",
maxDistance 0, the band of row i = 2 is `[start_j, end_j] = [2, 2]`, so
column 1 is outside the band of row 2.  Yet when the band loop computes the
in-band cell (2, 2), its `ins` operand reads cell (2, 1) of the same row
(`curr[j-1]` in `diagBandGo`), which at that moment still holds its
initialisation value 0 — not a value greater than maxDistance — because the
sentinel fill loops run only after the band loop.  The last conjunct
evaluates the whole call; the third records the band-loop computation of
row 2, whose input row is `diagInitRow 2 2` with cell 1 equal to 0. -/
theorem claim_C3_failing_input :
    (diagStartJ 0 2 = 2 ∧ diagEndJ 2 0 2 = 2)
      ∧ (diagInitRow 2 2).getD (diagStartJ 0 2 - 1) 0 = 0
      ∧ diagBandGo ('B') (['A', 'B']) ([1, 0, 5] : List Int) 2 1 (diagInitRow 2 2)
          = ([2, 0, 0] : List Int)
      ∧ ¬ ((diagInitRow 2 2).getD (diagStartJ 0 2 - 1) 0 > (0 : Int))
      ∧ levenshtein_search_diagonal (['A', 'B']) (['A', 'B']) 0 = some [0] := by
  refine ⟨⟨by decide, by decide⟩, by decide, by decide, by decide, by decide⟩

theorem ccLevRowGo_fst (ti : Char) :
    ∀ (b : List Char) (prev : List Nat) (left c : Nat),
      (ccLevRowGo ti b prev left c).1 = optRowGo ti b prev left := by
  intro b
  induction b with
  | nil => intro prev left c; rfl
  | cons bj bs ih =>
    intro prev left c
    cases prev with
    | nil => rfl
    | cons diag prest => simp only [ccLevRowGo, optRowGo, ih]

theorem ccLevRowsGo_fst (t p : List Char) (start : Nat) :
    ∀ (cnt i : Nat) (prev : List Nat) (c : Nat), 1 ≤ i →
      (ccLevRowsGo t p start i cnt prev c).1 =
        optRowsGo p ((List.range cnt).map (fun k => t.getD (start + i - 1 + k) default))
          prev i := by
  intro cnt
  induction cnt with
  | zero => intro i prev c _; rfl
  | succ k ih =>
    intro i prev c hi
    rw [ccLevRowsGo, ih _ _ _ (by omega), List.range_succ_eq_map, List.map_cons,
      List.map_map, ccLevRowGo_fst, optRowsGo]
    have h0 : start + i - 1 + 0 = start + i - 1 := by omega
    have hf : ((fun k => t.getD (start + i - 1 + k) default) ∘ Nat.succ) =
        (fun k => t.getD (start + (i + 1) - 1 + k) default) := by
      funext k
      simp only [Function.comp]
      congr 1
      omega
    rw [h0, hf]

theorem window_chars (t : List Char) (start m : Nat) (h : start + m ≤ t.length) :
    (List.range m).map (fun k => t.getD (start + k) default) =
      (t.drop start).take m := by
  apply List.ext_getElem
  · simp only [List.length_map, List.length_range, List.length_take, List.length_drop]
    omega
  · intro k h1 h2
    simp only [List.getElem_map, List.getElem_range, List.getElem_take,
      List.getElem_drop]
    rw [List.getD_eq_getElem]

theorem foldl_fst_filter (g : List Nat × Nat → Nat → List Nat × Nat) (Q : Nat → Bool)
    (hg : ∀ acc s, (g acc s).1 = if Q s then acc.1 ++ [s] else acc.1) :
    ∀ (l : List Nat) (acc : List Nat × Nat),
      (l.foldl g acc).1 = acc.1 ++ l.filter Q := by
  intro l
  induction l with
  | nil => intro acc; simp
  | cons s l2 ih =>
    intro acc
    rw [List.foldl_cons, ih, hg, List.filter_cons]
    by_cases hq : Q s
    · simp [hq]
    · simp [hq]

theorem cc_lev_fst (t p : List Char) (d : Int) :
    (count_comparisons_levenshtein t p d).1 = levenshtein_search_optimized t p d := by
  rw [count_comparisons_levenshtein, levenshtein_search_optimized]
  by_cases hm : p.length = 0
  · simp [hm]
  · by_cases hn : t.length < p.length
    · simp [hm, hn]
    · rw [if_neg hm, if_neg hm, if_neg hn, if_neg hn]
      rw [foldl_fst_filter _
        (fun s => decide (((optRowsGo p
          ((List.range p.length).map (fun k => t.getD (s + k) default))
          (List.range (p.length + 1)) 1).getD p.length 0 : Int) ≤ d))]
      · rw [List.nil_append]
        apply List.filter_congr
        intro s hs
        rw [List.mem_range] at hs
        rw [← window_chars t s p.length (by omega), optWindowDist]
      · intro acc s
        have hrw := ccLevRowsGo_fst t p s p.length 1 (List.range (p.length + 1))
          acc.2 (by omega)
        have harg : ∀ k : Nat, s + 1 - 1 + k = s + k := fun k => by omega
        simp only [harg] at hrw
        simp only [hrw, decide_eq_true_eq]


theorem claim_C9_amended_witness :
    (-1 : Int) < 0 ∧ (['A'] : List Char) ≠ []
      ∧ (levenshtein_search (['A']) (['A']) (-1) = []
        ∧ levenshtein_search_optimized (['A']) (['A']) (-1) = []
        ∧ (levenshtein_search_diagonal (['A']) (['A']) (-1) = some [] ∨
            levenshtein_search_diagonal (['A']) (['A']) (-1) = none)) :=
  ⟨by decide, by decide, claim_C9_amended (['A']) (['A']) (-1) (by decide) (by decide)⟩


theorem snoc_suffix_snoc {u v : List Char} {a b : Char} :
    (u ++ [a]) <:+ (v ++ [b]) ↔ a = b ∧ u <:+ v := by
  rw [← List.reverse_prefix, List.reverse_append, List.reverse_append]
  simp only [List.reverse_singleton, List.singleton_append, List.cons_prefix_cons]
  rw [List.reverse_prefix]

theorem suffix_snoc_self {u v : List Char} {a : Char} (h : u <:+ v) :
    (u ++ [a]) <:+ (v ++ [a]) := by
  rcases h with ⟨w, hw⟩
  exact ⟨w, by rw [← hw, List.append_assoc]⟩

theorem take_succ_eq (l : List Char) (i : Nat) (h : i < l.length) :
    l.take (i + 1) = l.take i ++ [l.getD i default] := by
  rw [← List.take_concat_get l i h, List.concat_eq_append, List.getD_eq_getElem l default h]

theorem take_take_of_le (p : List Char) {k i : Nat} (hk : k ≤ i) :
    (p.take i).take k = p.take k := by
  rw [List.take_take, min_eq_left hk]

theorem length_take_of_le (p : List Char) {i : Nat} (hi : i ≤ p.length) :
    (p.take i).length = i := by
  rw [List.length_take]
  omega

theorem border_extend (p : List Char) {k i : Nat} (hk : k < p.length) (hi : i < p.length) :
    (p.take (k + 1) <:+ p.take (i + 1)) ↔
      (p.take k <:+ p.take i) ∧ p.getD k default = p.getD i default := by
  rw [take_succ_eq p k hk, take_succ_eq p i hi, snoc_suffix_snoc, and_comm]

theorem bordLen_border {x : List Char} (_hx : x ≠ []) : x.take (bordLen x) <:+ x := by
  have h := Nat.findGreatest_spec (P := fun k => x.take k <:+ x) (m := 0)
    (n := x.length - 1) (by omega) (by simp)
  exact h

theorem bordLen_lt {x : List Char} (hx : x ≠ []) : bordLen x < x.length := by
  have h1 : bordLen x ≤ x.length - 1 := Nat.findGreatest_le _
  have h2 : x.length ≠ 0 := by simpa using hx
  omega

theorem le_bordLen {x : List Char} {k : Nat} (hk : k ≤ x.length - 1)
    (h : x.take k <:+ x) : k ≤ bordLen x :=
  Nat.le_findGreatest hk h

theorem matchAt_take_suffix {t p : List Char} {o : Nat} (h : matchAt t p o)
    {k : Nat} (hk : k ≤ p.length) : p.take k <:+ t.take (o + k) := by
  have h1 : (t.take (o + k)).drop o = (t.drop o).take k := by
    rw [List.drop_take]
    congr 1
    omega
  have h2 : (t.drop o).take k = p.take k := by
    rw [← h, take_take_of_le _ hk]
  exact h2 ▸ h1 ▸ List.drop_suffix o (t.take (o + k))

theorem matchAt_getD {t p : List Char} {o : Nat} (h : matchAt t p o)
    (hn : o + p.length ≤ t.length) {k : Nat} (hk : k < p.length) :
    p.getD k default = t.getD (o + k) default := by
  have hok : o + k < t.length := by omega
  have hkd : k < (t.drop o).length := by
    rw [List.length_drop]
    omega
  have hkt : k < ((t.drop o).take p.length).length := by
    rw [List.length_take, List.length_drop]
    omega
  rw [matchAt] at h
  conv_lhs => rw [← h]
  rw [List.getD_eq_getElem _ default hkt, List.getD_eq_getElem t default hok]
  rw [List.getElem_take, List.getElem_drop]

theorem full_match_of_suffix {t p : List Char} {i : Nat} (h : p <:+ t.take i)
    (hi : i ≤ t.length) (hm : p.length ≤ i) : matchAt t p (i - p.length) := by
  have hlen : (t.take i).length = i := length_take_of_le t hi
  have hthis := List.suffix_iff_eq_drop.1 h
  rw [hlen] at hthis
  have harith : i - (i - p.length) = p.length := by omega
  rw [matchAt]
  conv_rhs => rw [hthis]
  rw [List.drop_take, harith]


theorem getD_set_self {l : List Nat} {i v : Nat} (h : i < l.length) :
    (l.set i v).getD i 0 = v := by
  rw [List.getD_eq_getElem?_getD, List.getElem?_set, if_pos rfl, if_pos h]
  rfl

theorem getD_set_ne {l : List Nat} {i k v : Nat} (h : i ≠ k) :
    (l.set i v).getD k 0 = l.getD k 0 := by
  rw [List.getD_eq_getElem?_getD, List.getElem?_set, if_neg h, ← List.getD_eq_getElem?_getD]

theorem getD_replicate_zero (n k : Nat) : (List.replicate n (0 : Nat)).getD k 0 = 0 := by
  rw [List.getD_eq_getElem?_getD]
  cases h : (List.replicate n (0 : Nat))[k]? with
  | none => rfl
  | some v =>
    have hv := List.eq_of_mem_replicate (List.getElem?_mem h)
    simp [hv]

theorem lpsGo_length (p : List Char) :
    ∀ (fuel i j : Nat) (lps : List Nat), (lpsGo p fuel i j lps).length = lps.length := by
  intro fuel
  induction fuel with
  | zero => intro i j lps; rfl
  | succ f ih =>
    intro i j lps
    rw [lpsGo]
    split
    · split
      · rw [ih, List.length_set]
      · split
        · rw [ih]
        · rw [ih, List.length_set]
    · rfl

theorem bordLen_take_one (p : List Char) (hm : p.length ≠ 0) :
    bordLen (p.take 1) = 0 := by
  unfold bordLen
  rw [length_take_of_le p (by omega)]
  rfl

theorem lpsGo_spec (p : List Char) :
    ∀ (fuel i j : Nat) (lps : List Nat),
      2 * (p.length - i) + j < fuel →
      1 ≤ i → i ≤ p.length → j < i →
      lps.length = p.length →
      (∀ k, k < i → lps.getD k 0 = bordLen (p.take (k + 1))) →
      p.take j <:+ p.take i →
      (∀ k, j < k → k < i → p.take k <:+ p.take i →
        p.getD k default ≠ p.getD i default) →
      ∀ k, k < p.length → (lpsGo p fuel i j lps).getD k 0 = bordLen (p.take (k + 1)) := by
  intro fuel
  induction fuel with
  | zero => intro i j lps hfuel; omega
  | succ f ih =>
    intro i j lps hfuel h1i him hji hlen hent ha hc k hk
    rw [lpsGo]
    by_cases hi : i < p.length
    · rw [if_pos hi]
      have hlen1 : (p.take (i + 1)).length = i + 1 := length_take_of_le p (by omega)
      have hne1 : p.take (i + 1) ≠ [] := by
        intro habs
        rw [habs] at hlen1
        simp at hlen1
      by_cases hmatch : p.getD i default = p.getD j default
      · rw [if_pos hmatch]
        -- the longest border of p.take (i+1) has length exactly j + 1
        have hstep : p.take (j + 1) <:+ p.take (i + 1) :=
          (border_extend p (by omega) hi).2 ⟨ha, hmatch.symm⟩
        have hentry : bordLen (p.take (i + 1)) = j + 1 := by
          have hble : bordLen (p.take (i + 1)) ≤ (p.take (i + 1)).length - 1 :=
            Nat.findGreatest_le _
          rw [hlen1] at hble
          have hbord : (p.take (i + 1)).take (bordLen (p.take (i + 1))) <:+ p.take (i + 1) :=
            bordLen_border hne1
          rw [take_take_of_le p (by omega)] at hbord
          have hup : bordLen (p.take (i + 1)) ≤ j + 1 := by
            rcases hb : bordLen (p.take (i + 1)) with _ | b2
            · omega
            · rw [hb] at hbord hble
              have hb2 : b2 < p.length := by omega
              have hext := (border_extend p hb2 hi).1 hbord
              by_contra hgt
              exact hc b2 (by omega) (by omega) hext.1 hext.2
          have hlo : j + 1 ≤ bordLen (p.take (i + 1)) := by
            apply le_bordLen
            · rw [hlen1]; omega
            · rwa [take_take_of_le p (by omega)]
          omega
        apply ih (i + 1) (j + 1) (lps.set i (j + 1)) (by omega) (by omega) (by omega)
          (by omega) (by rw [List.length_set, hlen])
        · intro k2 hk2
          by_cases hk2i : k2 = i
          · subst hk2i
            rw [getD_set_self (by omega), hentry]
          · rw [getD_set_ne (by omega)]
            exact hent k2 (by omega)
        · exact hstep
        · intro k2 hgt hlt hsuf
          intro _heq
          have hle2 : k2 ≤ bordLen (p.take (i + 1)) := by
            apply le_bordLen
            · rw [hlen1]; omega
            · rwa [take_take_of_le p (by omega)]
          omega
        · exact hk
      · rw [if_neg hmatch]
        by_cases hj0 : j ≠ 0
        · rw [if_pos hj0]
          have hjlen : (p.take j).length = j := length_take_of_le p (by omega)
          have hjne : p.take j ≠ [] := by
            intro habs
            rw [habs] at hjlen
            simp at hjlen
            omega
          have hj' : lps.getD (j - 1) 0 = bordLen (p.take j) := by
            have := hent (j - 1) (by omega)
            rwa [Nat.sub_add_cancel (by omega)] at this
          have hj'lt : bordLen (p.take j) < j := by
            have := bordLen_lt hjne
            rwa [hjlen] at this
          apply ih i (lps.getD (j - 1) 0) lps (by omega) h1i him (by omega) hlen hent
          · rw [hj']
            have h1 : (p.take j).take (bordLen (p.take j)) <:+ p.take j :=
              bordLen_border hjne
            rw [take_take_of_le p (by omega)] at h1
            exact h1.trans ha
          · intro k2 hgt hlt hsuf
            rw [hj'] at hgt
            by_cases hkj : j < k2
            · exact hc k2 hkj hlt hsuf
            · by_cases hkeq : k2 = j
              · subst hkeq
                intro heq
                exact hmatch heq.symm
              · -- k2 < j: it would be a longer border of p.take j than bordLen
                intro _heq
                have hsub : p.take k2 <:+ p.take j := by
                  apply List.suffix_of_suffix_length_le hsuf ha
                  rw [hjlen, length_take_of_le p (by omega)]
                  omega
                have : k2 ≤ bordLen (p.take j) := by
                  apply le_bordLen
                  · rw [hjlen]; omega
                  · rwa [take_take_of_le p (by omega)]
                omega
          · exact hk
        · rw [if_neg hj0]
          push_neg at hj0
          subst hj0
          have hentry : bordLen (p.take (i + 1)) = 0 := by
            have hble : bordLen (p.take (i + 1)) ≤ (p.take (i + 1)).length - 1 :=
              Nat.findGreatest_le _
            rw [hlen1] at hble
            have hbord : (p.take (i + 1)).take (bordLen (p.take (i + 1))) <:+ p.take (i + 1) :=
              bordLen_border hne1
            rw [take_take_of_le p (by omega)] at hbord
            rcases hb : bordLen (p.take (i + 1)) with _ | b2
            · rfl
            · rw [hb] at hbord hble
              have hb2 : b2 < p.length := by omega
              have hext := (border_extend p hb2 hi).1 hbord
              rcases Nat.eq_zero_or_pos b2 with hz | hpos
              · subst hz
                exact absurd hext.2.symm hmatch
              · exact absurd hext.2 (hc b2 (by omega) (by omega) hext.1)
          apply ih (i + 1) 0 (lps.set i 0) (by omega) (by omega) (by omega) (by omega)
            (by rw [List.length_set, hlen])
          · intro k2 hk2
            by_cases hk2i : k2 = i
            · subst hk2i
              rw [getD_set_self (by omega), hentry]
            · rw [getD_set_ne (by omega)]
              exact hent k2 (by omega)
          · simp
          · intro k2 hgt hlt hsuf
            intro _heq
            have hle2 : k2 ≤ bordLen (p.take (i + 1)) := by
              apply le_bordLen
              · rw [hlen1]; omega
              · rwa [take_take_of_le p (by omega)]
            omega
          · exact hk
    · rw [if_neg hi]
      exact hent k (by omega)

theorem lps_table_spec (p : List Char) (hm : p.length ≠ 0) :
    ∀ k, k < p.length → (compute_lps_table p).getD k 0 = bordLen (p.take (k + 1)) := by
  intro k hk
  rw [compute_lps_table]
  apply lpsGo_spec p (2 * p.length) 1 0 _ (by omega) (by omega) (by omega) (by omega)
    (by rw [List.length_replicate])
  · intro k2 hk2
    have hk20 : k2 = 0 := by omega
    subst hk20
    rw [getD_replicate_zero, bordLen_take_one p hm]
  · simp
  · intro k2 hgt hlt
    omega
  · exact hk

theorem lps_table_length (p : List Char) : (compute_lps_table p).length = p.length := by
  rw [compute_lps_table, lpsGo_length, List.length_replicate]

theorem lps_le (p : List Char) : ∀ k : Nat, (compute_lps_table p).getD k 0 ≤ k := by
  intro k
  by_cases hk : k < p.length
  · rw [lps_table_spec p (by omega) k hk]
    have h1 : bordLen (p.take (k + 1)) ≤ (p.take (k + 1)).length - 1 :=
      Nat.findGreatest_le _
    rw [length_take_of_le p (by omega)] at h1
    omega
  · rw [List.getD_eq_default]
    · omega
    · rw [lps_table_length]
      omega

theorem lps_lt_length (p : List Char) (_hm : p.length ≠ 0) :
    ∀ k, k < p.length → (compute_lps_table p).getD k 0 < p.length := by
  intro k hk
  have := lps_le p k
  omega


theorem filter_range_append_one {N a : Nat} {Q1 Q2 : Nat → Bool} (ha : a < N)
    (hQ1a : Q1 a = true) (hQ2a : Q2 a = false)
    (hiff : ∀ o, o ≠ a → Q1 o = Q2 o)
    (hmax : ∀ o, a < o → Q1 o = false) :
    (List.range N).filter Q1 = (List.range N).filter Q2 ++ [a] := by
  induction N with
  | zero => omega
  | succ n ih =>
    rw [List.range_succ, List.filter_append, List.filter_append]
    by_cases han : a = n
    · subst han
      have heq : (List.range a).filter Q1 = (List.range a).filter Q2 := by
        apply List.filter_congr
        intro o ho
        rw [List.mem_range] at ho
        exact hiff o (by omega)
      rw [heq]
      simp [List.filter_cons, hQ1a, hQ2a]
    · have haln : a < n := by omega
      have h1n : Q1 n = false := hmax n (by omega)
      have h2n : Q2 n = false := by rw [hiff n (by omega)] at h1n; exact h1n
      rw [ih haln]
      simp [List.filter_cons, h1n, h2n]

theorem occUpTo_zero (t p : List Char) (hp : p.length ≠ 0) : occUpTo t p 0 = [] := by
  apply List.filter_eq_nil_iff.2
  intro s hs
  simp only [Bool.and_eq_true, decide_eq_true_eq, not_and]
  intro _
  omega

theorem occUpTo_full (t p : List Char) : occUpTo t p t.length = matchOffsets t p := by
  apply List.filter_congr
  intro o ho
  rw [List.mem_range] at ho
  have : o + p.length ≤ t.length := by omega
  simp [this]

theorem occUpTo_succ_none (t p : List Char) (i : Nat)
    (hno : ∀ o, o < t.length + 1 - p.length → matchAt t p o → o + p.length ≠ i + 1) :
    occUpTo t p (i + 1) = occUpTo t p i := by
  apply List.filter_congr
  intro o ho
  rw [List.mem_range] at ho
  by_cases hma : matchAt t p o
  · have hne := hno o ho hma
    have hiff : (o + p.length ≤ i + 1) ↔ (o + p.length ≤ i) := by omega
    simp [hma, hiff]
  · simp [hma]

theorem occUpTo_succ_app (t p : List Char) (i : Nat) (hm : p.length ≤ i + 1)
    (hR : i + 1 - p.length < t.length + 1 - p.length)
    (hocc : matchAt t p (i + 1 - p.length)) :
    occUpTo t p (i + 1) = occUpTo t p i ++ [i + 1 - p.length] := by
  apply filter_range_append_one hR
  · simp only [Bool.and_eq_true, decide_eq_true_eq]
    exact ⟨hocc, by omega⟩
  · have : ¬ ((i + 1 - p.length) + p.length ≤ i) := by omega
    simp [this]
  · intro o ho
    by_cases hma : matchAt t p o
    · have hiff : (o + p.length ≤ i + 1) ↔ (o + p.length ≤ i) := by omega
      simp [hma, hiff]
    · simp [hma]
  · intro o ho
    have : ¬ (o + p.length ≤ i + 1) := by omega
    simp [this]


theorem ccKmpGo_bound (t p : List Char) (lps : List Nat)
    (hl : ∀ k, lps.getD k 0 ≤ k) :
    ∀ (fuel i j : Nat) (occ : List Nat) (c : Nat),
      c + j ≤ 2 * i → i ≤ t.length →
      (ccKmpGo t p lps fuel i j occ c).2 ≤ 2 * t.length := by
  intro fuel
  induction fuel with
  | zero => intro i j occ c hc hi; simp only [ccKmpGo]; omega
  | succ f ih =>
    intro i j occ c hc hi
    rw [ccKmpGo]
    by_cases hin : i < t.length
    · rw [if_pos hin]
      by_cases hmatch : p.getD j default = t.getD i default
      · rw [if_pos hmatch]
        by_cases hjm : j + 1 = p.length
        · rw [if_pos hjm]
          apply ih
          · have := hl (p.length - 1)
            omega
          · omega
        · rw [if_neg hjm]
          apply ih
          · omega
          · omega
      · rw [if_neg hmatch]
        by_cases hj0 : j ≠ 0
        · rw [if_pos hj0]
          apply ih
          · have := hl (j - 1)
            omega
          · omega
        · rw [if_neg hj0]
          push_neg at hj0
          apply ih
          · omega
          · omega
    · rw [if_neg hin]
      simp only
      omega

/-- C6: for every text and every non-empty pattern no longer than the text,
the comparison count returned by count_comparisons_kmp is at most
2 * len(text). -/
theorem claim_C6_kmp_comparisons_le (t p : List Char) (h1 : p ≠ [])
    (h2 : p.length ≤ t.length) :
    (count_comparisons_kmp t p).2 ≤ 2 * t.length := by
  have hp : p.length ≠ 0 := by simpa using h1
  rw [count_comparisons_kmp, if_neg (by omega)]
  exact ccKmpGo_bound t p (compute_lps_table p) (lps_le p) (2 * t.length + 1) 0 0 [] 0
    (by omega) (by omega)

theorem claim_C6_kmp_comparisons_le_witness :
    ((['A'] : List Char) ≠ [] ∧ (['A'] : List Char).length ≤ (['A', 'B'] : List Char).length)
      ∧ (count_comparisons_kmp (['A', 'B']) (['A'])).2 ≤ 2 * (['A', 'B'] : List Char).length :=
  ⟨⟨by decide, by decide⟩,
    claim_C6_kmp_comparisons_le (['A', 'B']) (['A']) (by decide) (by decide)⟩


theorem kmpGo_spec (t p : List Char) (hm : p.length ≠ 0) (hmn : p.length ≤ t.length) :
    ∀ (fuel i j : Nat) (occ : List Nat),
      2 * (t.length - i) + j < fuel →
      i ≤ t.length → j < p.length → j ≤ i →
      p.take j <:+ t.take i →
      (∀ o, o + p.length ≤ t.length → matchAt t p o → i < o + p.length → i ≤ o + j) →
      occ = occUpTo t p i →
      kmpGo t p (compute_lps_table p) fuel i j occ = matchOffsets t p := by
  intro fuel
  induction fuel with
  | zero => intro i j occ hfuel; omega
  | succ f ih =>
    intro i j occ hfuel hi hj hji ha hc hocc
    rw [kmpGo]
    by_cases hin : i < t.length
    · rw [if_pos hin]
      by_cases hch : p.getD j default = t.getD i default
      · simp only [if_pos hch, Nat.add_sub_cancel]
        have hstep : p.take (j + 1) <:+ t.take (i + 1) := by
          rw [take_succ_eq t i hin, take_succ_eq p j (by omega), hch]
          exact suffix_snoc_self ha
        by_cases hjm : j + 1 = p.length
        · rw [if_pos hjm]
          have hfull : p <:+ t.take (i + 1) := by
            have := hstep
            rw [hjm, List.take_length] at this
            exact this
          have hmocc : matchAt t p (i + 1 - p.length) :=
            full_match_of_suffix hfull (by omega) (by omega)
          have hoeq : i + 1 - (j + 1) = i + 1 - p.length := by omega
          rw [hoeq]
          have hj' : (compute_lps_table p).getD j 0 = bordLen p := by
            rw [lps_table_spec p hm j (by omega), hjm, List.take_length]
          have hpne : p ≠ [] := by
            intro habs
            rw [habs] at hm
            simp at hm
          have hblt : bordLen p < p.length := bordLen_lt hpne
          rw [hj']
          apply ih (i + 1) (bordLen p) (occ ++ [i + 1 - p.length])
          · have := lps_le p j
            omega
          · omega
          · exact hblt
          · omega
          · exact (bordLen_border hpne).trans hfull
          · intro o ho hmo hlt
            by_contra hcon
            push_neg at hcon
            have hk1 : bordLen p < i + 1 - o := by omega
            have hk2 : i + 1 - o < p.length := by omega
            have holt : o < i + 1 := by omega
            have hsuf : p.take (i + 1 - o) <:+ t.take (i + 1) := by
              have := matchAt_take_suffix hmo (k := i + 1 - o) (by omega)
              have harith : o + (i + 1 - o) = i + 1 := by omega
              rwa [harith] at this
            have hsub : p.take (i + 1 - o) <:+ p := by
              apply List.suffix_of_suffix_length_le hsuf hfull
              rw [length_take_of_le p (by omega)]
              omega
            have : i + 1 - o ≤ bordLen p := le_bordLen (by omega) hsub
            omega
          · rw [hocc]
            rw [occUpTo_succ_app t p i (by omega) (by omega) hmocc]
        · rw [if_neg hjm]
          have hj1m : j + 1 < p.length := by omega
          by_cases hmis : i + 1 < t.length ∧
              p.getD (j + 1) default ≠ t.getD (i + 1) default
          · rw [if_pos hmis, if_pos (by omega)]
            have hj1len : (p.take (j + 1)).length = j + 1 := length_take_of_le p (by omega)
            have hj1ne : p.take (j + 1) ≠ [] := by
              intro habs
              rw [habs] at hj1len
              simp at hj1len
            have hj' : (compute_lps_table p).getD j 0 = bordLen (p.take (j + 1)) :=
              lps_table_spec p hm j (by omega)
            have hblt : bordLen (p.take (j + 1)) < j + 1 := by
              have := bordLen_lt hj1ne
              rwa [hj1len] at this
            rw [hj']
            apply ih (i + 1) (bordLen (p.take (j + 1))) occ
            · have := lps_le p j
              omega
            · omega
            · omega
            · omega
            · have hbord : (p.take (j + 1)).take (bordLen (p.take (j + 1))) <:+ p.take (j + 1) :=
                bordLen_border hj1ne
              rw [take_take_of_le p (by omega)] at hbord
              exact hbord.trans hstep
            · intro o ho hmo hlt
              by_contra hcon
              push_neg at hcon
              have hβ : i ≤ o + j := hc o ho hmo (by omega)
              have holt : o < i + 1 := by omega
              by_cases hkj : i + 1 - o = j + 1
              · -- the occurrence would need the very symbol that just mismatched
                have := matchAt_getD hmo ho (k := j + 1) (by omega)
                have harith : o + (j + 1) = i + 1 := by omega
                rw [harith] at this
                exact hmis.2 this
              · have hk2 : i + 1 - o ≤ j := by omega
                have hk1 : bordLen (p.take (j + 1)) < i + 1 - o := by omega
                have hsuf : p.take (i + 1 - o) <:+ t.take (i + 1) := by
                  have := matchAt_take_suffix hmo (k := i + 1 - o) (by omega)
                  have harith : o + (i + 1 - o) = i + 1 := by omega
                  rwa [harith] at this
                have hsub : p.take (i + 1 - o) <:+ p.take (j + 1) := by
                  apply List.suffix_of_suffix_length_le hsuf hstep
                  rw [length_take_of_le p (by omega), hj1len]
                  omega
                have : i + 1 - o ≤ bordLen (p.take (j + 1)) := by
                  apply le_bordLen
                  · rw [hj1len]; omega
                  · rwa [take_take_of_le p (by omega)]
                omega
            · rw [hocc]
              rw [occUpTo_succ_none]
              intro o ho hmo habs
              have : i < o + p.length := by omega
              have := hc o (by omega) hmo this
              omega
          · rw [if_neg hmis]
            apply ih (i + 1) (j + 1) occ
            · omega
            · omega
            · exact hj1m
            · omega
            · exact hstep
            · intro o ho hmo hlt
              have := hc o ho hmo (by omega)
              omega
            · rw [hocc]
              rw [occUpTo_succ_none]
              intro o ho hmo habs
              have : i < o + p.length := by omega
              have := hc o (by omega) hmo this
              omega
      · simp only [if_neg hch]
        rw [if_neg (by omega)]
        rw [if_pos (by exact ⟨hin, hch⟩)]
        by_cases hj0 : j ≠ 0
        · rw [if_pos hj0]
          have hjlen : (p.take j).length = j := length_take_of_le p (by omega)
          have hjne : p.take j ≠ [] := by
            intro habs
            rw [habs] at hjlen
            simp at hjlen
            omega
          have hj' : (compute_lps_table p).getD (j - 1) 0 = bordLen (p.take j) := by
            have := lps_table_spec p hm (j - 1) (by omega)
            rwa [Nat.sub_add_cancel (by omega)] at this
          have hblt : bordLen (p.take j) < j := by
            have := bordLen_lt hjne
            rwa [hjlen] at this
          rw [hj']
          apply ih i (bordLen (p.take j)) occ
          · omega
          · omega
          · omega
          · omega
          · have hbord : (p.take j).take (bordLen (p.take j)) <:+ p.take j :=
              bordLen_border hjne
            rw [take_take_of_le p (by omega)] at hbord
            exact hbord.trans ha
          · intro o ho hmo hlt
            by_contra hcon
            push_neg at hcon
            have hβ : i ≤ o + j := hc o ho hmo hlt
            have holt : o < i := by omega
            by_cases hkj : i - o = j
            · have := matchAt_getD hmo ho (k := j) (by omega)
              have harith : o + j = i := by omega
              rw [harith] at this
              exact hch this
            · have hk2 : i - o < j := by omega
              have hk1 : bordLen (p.take j) < i - o := by omega
              have hsuf : p.take (i - o) <:+ t.take i := by
                have := matchAt_take_suffix hmo (k := i - o) (by omega)
                have harith : o + (i - o) = i := by omega
                rwa [harith] at this
              have hsub : p.take (i - o) <:+ p.take j := by
                apply List.suffix_of_suffix_length_le hsuf ha
                rw [length_take_of_le p (by omega), hjlen]
                omega
              have : i - o ≤ bordLen (p.take j) := by
                apply le_bordLen
                · rw [hjlen]; omega
                · rwa [take_take_of_le p (by omega)]
              omega
          · exact hocc
        · rw [if_neg hj0]
          push_neg at hj0
          subst hj0
          apply ih (i + 1) 0 occ
          · omega
          · omega
          · omega
          · omega
          · simp
          · intro o ho hmo hlt
            by_contra hcon
            push_neg at hcon
            have hβ : i ≤ o + 0 := hc o ho hmo (by omega)
            have hoi : o = i := by omega
            have := matchAt_getD hmo ho (k := 0) (by omega)
            rw [hoi] at this
            simp only [Nat.add_zero] at this
            exact hch this
          · rw [hocc]
            rw [occUpTo_succ_none]
            intro o ho hmo habs
            have h1 : i < o + p.length := by omega
            have hβ : i ≤ o + 0 := hc o (by omega) hmo h1
            have hoi : o = i := by omega
            have hm1 : p.length = 1 := by omega
            have := matchAt_getD hmo (by omega) (k := 0) (by omega)
            rw [hoi] at this
            simp only [Nat.add_zero] at this
            exact absurd this hch
    · rw [if_neg hin]
      have hieq : i = t.length := by omega
      rw [hocc, hieq, occUpTo_full]

theorem kmp_eq_matchOffsets (t p : List Char) (h1 : p.length ≠ 0)
    (h2 : p.length ≤ t.length) : kmp_search t p = matchOffsets t p := by
  rw [kmp_search, if_neg h1, if_neg (by omega)]
  apply kmpGo_spec t p h1 h2 (2 * t.length + 1) 0 0 [] (by omega) (by omega) (by omega)
    (by omega)
  · simp
  · intro o _ _ _
    omega
  · rw [occUpTo_zero t p h1]


theorem ccKmpGo_fst (t p : List Char) (lps : List Nat)
    (hl : ∀ k, lps.getD k 0 ≤ k) :
    ∀ (fuel1 fuel2 i j : Nat) (occ : List Nat) (c : Nat),
      2 * (t.length - i) + j < fuel1 → 2 * (t.length - i) + j < fuel2 →
      j < p.length → i ≤ t.length →
      (ccKmpGo t p lps fuel2 i j occ c).1 = kmpGo t p lps fuel1 i j occ := by
  intro fuel1
  induction fuel1 with
  | zero => intro fuel2 i j occ c h1; omega
  | succ f ih =>
    intro fuel2 i j occ c h1 h2 hj hi
    rcases fuel2 with _ | f2
    · omega
    rw [kmpGo, ccKmpGo]
    by_cases hin : i < t.length
    · rw [if_pos hin, if_pos hin]
      by_cases hch : p.getD j default = t.getD i default
      · rw [if_pos hch]
        simp only [if_pos hch, Nat.add_sub_cancel]
        by_cases hjm : j + 1 = p.length
        · rw [if_pos hjm, if_pos hjm]
          have he1 : i + 1 - (j + 1) = i + 1 - p.length := by omega
          have he2 : lps.getD j 0 = lps.getD (p.length - 1) 0 := by
            have : j = p.length - 1 := by omega
            rw [this]
          rw [he1, he2]
          apply ih
          · have := hl (p.length - 1)
            omega
          · have := hl (p.length - 1)
            omega
          · have := hl (p.length - 1)
            omega
          · omega
        · rw [if_neg hjm, if_neg hjm]
          by_cases hmis : i + 1 < t.length ∧
              p.getD (j + 1) default ≠ t.getD (i + 1) default
          · rw [if_pos hmis, if_pos (by omega)]
            -- the plain loop falls back inside the same iteration; the
            -- instrumented loop needs one more iteration to do the same
            rcases f2 with _ | f22
            · omega
            rw [ccKmpGo, if_pos hmis.1, if_neg hmis.2, if_pos (by omega)]
            simp only [Nat.add_sub_cancel]
            apply ih
            · have := hl j
              omega
            · have := hl j
              omega
            · have := hl j
              omega
            · omega
          · rw [if_neg hmis]
            apply ih
            · omega
            · omega
            · omega
            · omega
      · rw [if_neg hch]
        simp only [if_neg hch]
        have hne_m : ¬ (j = p.length) := by omega
        have hmis : i < t.length ∧ p.getD j default ≠ t.getD i default := ⟨hin, hch⟩
        rw [if_neg hne_m, if_pos hmis]
        by_cases hj0 : j ≠ 0
        · rw [if_pos hj0, if_pos hj0]
          apply ih
          · have := hl (j - 1)
            omega
          · have := hl (j - 1)
            omega
          · have := hl (j - 1)
            omega
          · omega
        · rw [if_neg hj0, if_neg hj0]
          push_neg at hj0
          apply ih <;> omega
    · rw [if_neg hin, if_neg hin]

theorem cc_kmp_fst (t p : List Char) :
    (count_comparisons_kmp t p).1 = kmp_search t p := by
  rw [count_comparisons_kmp, kmp_search]
  by_cases hm : p.length = 0
  · rw [if_pos (Or.inl hm), if_pos hm]
  · by_cases hn : t.length < p.length
    · rw [if_pos (Or.inr hn), if_neg hm, if_pos hn]
    · rw [if_neg (by push_neg; exact ⟨hm, by omega⟩), if_neg hm, if_neg hn]
      exact ccKmpGo_fst t p _ (lps_le p) (2 * t.length + 1) (2 * t.length + 1) 0 0 [] 0
        (by omega) (by omega) (by omega) (by omega)


theorem filter_range'_head_none {Q : Nat → Bool} :
    ∀ (len s : Nat), ((List.range' s len).filter Q).head? = none →
      ∀ b, s ≤ b → b < s + len → Q b = false := by
  intro len
  induction len with
  | zero => intro s _ b hb1 hb2; omega
  | succ l ih =>
    intro s hh b hb1 hb2
    rw [List.range'_succ, List.filter_cons] at hh
    by_cases hqs : Q s
    · rw [if_pos hqs] at hh
      simp at hh
    · rw [if_neg hqs] at hh
      by_cases hbs : b = s
      · subst hbs
        simpa using hqs
      · exact ih (s + 1) hh b (by omega) (by omega)

theorem filter_range'_head_some {Q : Nat → Bool} :
    ∀ (len s a : Nat), ((List.range' s len).filter Q).head? = some a →
      s ≤ a ∧ a < s + len ∧ Q a = true ∧ ∀ b, s ≤ b → b < a → Q b = false := by
  intro len
  induction len with
  | zero => intro s a hh; simp [List.range'] at hh
  | succ l ih =>
    intro s a hh
    rw [List.range'_succ, List.filter_cons] at hh
    by_cases hqs : Q s
    · rw [if_pos hqs, List.head?_cons] at hh
      cases hh
      exact ⟨le_refl _, by omega, hqs, fun b hb1 hb2 => by omega⟩
    · rw [if_neg hqs] at hh
      obtain ⟨h1, h2, h3, h4⟩ := ih (s + 1) a hh
      refine ⟨by omega, by omega, h3, ?_⟩
      intro b hb1 hb2
      by_cases hbs : b = s
      · subst hbs
        simpa using hqs
      · exact h4 b (by omega) hb2

theorem matchAt_add_le {t p : List Char} {o : Nat} (h : matchAt t p o)
    (hp : p.length ≠ 0) : o + p.length ≤ t.length := by
  rw [matchAt] at h
  have := congrArg List.length h
  rw [List.length_take, List.length_drop] at this
  omega

theorem filter_range_cons_min {N a : Nat} {Q1 Q2 : Nat → Bool} (ha : a < N)
    (hQ1a : Q1 a = true) (hQ2a : Q2 a = false)
    (hiff : ∀ o, o ≠ a → Q1 o = Q2 o)
    (hmin : ∀ o, o < a → Q1 o = false) :
    (List.range N).filter Q1 = a :: (List.range N).filter Q2 := by
  induction N with
  | zero => omega
  | succ n ih =>
    rw [List.range_succ, List.filter_append, List.filter_append]
    by_cases han : a = n
    · subst han
      have h1 : (List.range a).filter Q1 = [] := by
        apply List.filter_eq_nil_iff.2
        intro o ho
        rw [List.mem_range] at ho
        simp [hmin o ho]
      have h2 : (List.range a).filter Q2 = [] := by
        apply List.filter_eq_nil_iff.2
        intro o ho
        rw [List.mem_range] at ho
        have := hmin o ho
        rw [hiff o (by omega)] at this
        simp [this]
      rw [h1, h2]
      simp [List.filter_cons, hQ1a, hQ2a]
    · have haln : a < n := by omega
      have hqn : Q1 n = Q2 n := hiff n (by omega)
      rw [ih haln]
      simp only [List.filter_cons, List.filter_nil, hqn, List.cons_append]
  
theorem nativeGo_spec (t p : List Char) (hp : p.length ≠ 0) :
    ∀ (fuel start : Nat) (ms : List Nat),
      t.length + 1 - start < fuel → start ≤ t.length + 1 →
      nativeGo t p fuel start ms =
        ms ++ (matchOffsets t p).filter (fun o => decide (start ≤ o)) := by
  intro fuel
  induction fuel with
  | zero => intro start ms h1; omega
  | succ f ih =>
    intro start ms h1 h2
    rw [nativeGo]
    cases hf : pyFind t p start with
    | none =>
      rw [pyFind, List.range_eq_range'] at hf
      have hno := filter_range'_head_none (t.length + 1) 0 hf
      have : (matchOffsets t p).filter (fun o => decide (start ≤ o)) = [] := by
        apply List.filter_eq_nil_iff.2
        intro o ho
        rw [matchOffsets, List.mem_filter, List.mem_range] at ho
        have hQ := hno o (by omega) (by omega)
        simp only [Bool.and_eq_false_iff, decide_eq_false_iff_not, not_le] at hQ
        rcases hQ with hQ | hQ
        · simp
          omega
        · simp only [decide_eq_true_eq] at ho
          exact absurd ho.2 (by simpa using hQ)
      rw [this, List.append_nil]
    | some idx =>
      rw [pyFind, List.range_eq_range'] at hf
      obtain ⟨hi1, hi2, hi3, hi4⟩ := filter_range'_head_some (t.length + 1) 0 idx hf
      simp only [Bool.and_eq_true, decide_eq_true_eq] at hi3
      have hidxm : idx + p.length ≤ t.length := matchAt_add_le hi3.2 hp
      change nativeGo t p f (idx + 1) (ms ++ [idx]) = _
      rw [ih (idx + 1) (ms ++ [idx]) (by omega) (by omega)]
      rw [List.append_assoc]
      congr 1
      have hsplit : (matchOffsets t p).filter (fun o => decide (start ≤ o)) =
          idx :: (matchOffsets t p).filter (fun o => decide (idx + 1 ≤ o)) := by
        rw [matchOffsets, List.filter_filter, List.filter_filter]
        apply filter_range_cons_min (a := idx) (by omega)
        · simp only [Bool.and_eq_true, decide_eq_true_eq]
          exact ⟨hi3.1, hi3.2⟩
        · simp only [Bool.and_eq_false_iff, decide_eq_false_iff_not]
          left
          omega
        · intro o hne
          by_cases hmo : matchAt t p o
          · by_cases holt : o < idx
            · have := hi4 o (by omega) holt
              simp only [Bool.and_eq_false_iff, decide_eq_false_iff_not, not_le] at this
              rcases this with hl | hr
              · have hss : ¬ (start ≤ o) := by omega
                have hss2 : ¬ (idx + 1 ≤ o) := by omega
                simp [hss, hss2]
              · exact absurd hmo (by simpa using hr)
            · have hgt : idx < o := by omega
              have hss : start ≤ o := by omega
              have hss2 : idx + 1 ≤ o := by omega
              simp [hss, hss2]
          · simp [hmo]
        · intro o holt
          by_cases hmo : matchAt t p o
          · have := hi4 o (by omega) holt
            simp only [Bool.and_eq_false_iff, decide_eq_false_iff_not, not_le] at this
            rcases this with hl | hr
            · have hss : ¬ (start ≤ o) := by omega
              simp [hss]
            · exact absurd hmo (by simpa using hr)
          · simp [hmo]
      rw [hsplit]
      rfl

theorem native_eq_matchOffsets (t p : List Char) (hp : p.length ≠ 0) :
    native_search t p = matchOffsets t p := by
  rw [native_search, nativeGo_spec t p hp (t.length + 2) 0 [] (by omega) (by omega)]
  rw [List.nil_append]
  apply List.filter_eq_self.2
  intro o _
  simp


theorem pref_trans {u v w : List Char} (h1 : u <+: v) (h2 : v <+: w) : u <+: w := by
  rcases h1 with ⟨a, ha⟩
  rcases h2 with ⟨b, hb⟩
  exact ⟨a ++ b, by rw [← List.append_assoc, ha, hb]⟩

theorem drop_pref_of_drop_pref {p : List Char} {i k1 k2 : Nat}
    (h1 : p.drop k1 <+: p.drop i) (h2 : p.drop k2 <+: p.drop i) (hle : k1 ≤ k2) :
    p.drop k2 <+: p.drop k1 := by
  apply List.prefix_of_prefix_length_le h2 h1
  rw [List.length_drop, List.length_drop]
  omega

theorem drop_pref_extend (p : List Char) {i k : Nat} (hi1 : 1 ≤ i) (him : i ≤ p.length)
    (hk1 : 1 ≤ k) (hkm : k ≤ p.length) :
    (p.drop (k - 1) <+: p.drop (i - 1)) ↔
      (p.getD (k - 1) default = p.getD (i - 1) default ∧ p.drop k <+: p.drop i) := by
  have hklt : k - 1 < p.length := by omega
  have hilt : i - 1 < p.length := by omega
  rw [List.drop_eq_getElem_cons hklt, List.drop_eq_getElem_cons hilt,
    List.cons_prefix_cons, Nat.sub_add_cancel hk1, Nat.sub_add_cancel hi1,
    List.getD_eq_getElem p default hklt, List.getD_eq_getElem p default hilt]

theorem isFSuf_lt {p : List Char} {k v : Nat} (h : isFSuf p k v) : k < v := by
  rw [isFSuf] at h
  split at h
  · omega
  · exact h.1

theorem isFSuf_le {p : List Char} {k v : Nat} (h : isFSuf p k v) : v ≤ p.length + 1 := by
  rw [isFSuf] at h
  split at h
  · omega
  · omega

theorem gsInner_spec (p : List Char) (i : Nat) (border : List Nat)
    (hm : 1 ≤ p.length) (hi1 : 1 ≤ i) (him : i ≤ p.length)
    (hb2 : ∀ k, i ≤ k → k ≤ p.length → isFSuf p k (border.getD k 0)) :
    ∀ (fuel j : Nat) (shift : List Nat),
      p.length + 2 - j ≤ fuel →
      i < j → j ≤ p.length + 1 →
      (j ≤ p.length → p.drop j <+: p.drop i) →
      (∀ u, i ≤ u → u + 1 < j → ¬ (p.drop u <+: p.drop (i - 1))) →
      (∀ q, q < p.length → i ≤ q → validAt p i q → q + 1 < j →
        shift.getD q 0 ≤ q + 1 - i) →
      (∀ q, q < p.length → ∀ i2, i < i2 → i2 ≤ q → validAt p i2 q →
        shift.getD q 0 ≤ q + 1 - i2) →
      (∀ q, q < p.length → shift.getD q 0 = p.length ∨
        (1 ≤ shift.getD q 0 ∧ shift.getD q 0 ≤ q + 1 - i ∧ shift.getD q 0 ≤ q)) →
      shift.length = p.length →
      isFSuf p (i - 1) ((gsInnerGo p i border fuel j shift).1 - 1) ∧
      i < (gsInnerGo p i border fuel j shift).1 ∧
      (gsInnerGo p i border fuel j shift).1 ≤ p.length + 1 ∧
      (gsInnerGo p i border fuel j shift).2.length = p.length ∧
      (∀ q, q < p.length → ∀ i2, i - 1 < i2 → i2 ≤ q → validAt p i2 q →
        (gsInnerGo p i border fuel j shift).2.getD q 0 ≤ q + 1 - i2) ∧
      (∀ q, q < p.length → (gsInnerGo p i border fuel j shift).2.getD q 0 = p.length ∨
        (1 ≤ (gsInnerGo p i border fuel j shift).2.getD q 0 ∧
          (gsInnerGo p i border fuel j shift).2.getD q 0 ≤ q + 1 - i ∧
          (gsInnerGo p i border fuel j shift).2.getD q 0 ≤ q)) := by
  intro fuel
  induction fuel with
  | zero => intro j shift hfuel hij hjle; omega
  | succ f ih =>
    intro j shift hfuel hij hjle hmem hWI hWI3 hI4 hI5 hlen
    rw [gsInnerGo]
    by_cases hcond : j ≤ p.length ∧ p.getD (i - 1) default ≠ p.getD (j - 1) default
    · rw [if_pos hcond]
      obtain ⟨hjm, hmis⟩ := hcond
      have hfs : isFSuf p j (border.getD j 0) := hb2 j (by omega) hjm
      have hjlt2 : j < border.getD j 0 := isFSuf_lt hfs
      have hj2le : border.getD j 0 ≤ p.length + 1 := isFSuf_le hfs
      -- minimality of the next chain element, relative to the suffix at i
      have hCNM : ∀ w, j < w → w < border.getD j 0 → ¬ (p.drop w <+: p.drop i) := by
        intro w hw1 hw2 habs
        by_cases hjm2 : j = p.length
        · rw [isFSuf, if_pos hjm2] at hfs
          omega
        · rw [isFSuf, if_neg hjm2] at hfs
          exact hfs.2.2.2 w hw1 hw2
            (drop_pref_of_drop_pref (hmem hjm) habs (by omega))
      have hmem2 : border.getD j 0 ≤ p.length → p.drop (border.getD j 0) <+: p.drop i := by
        intro hle
        by_cases hjm2 : j = p.length
        · rw [isFSuf, if_pos hjm2] at hfs
          omega
        · rw [isFSuf, if_neg hjm2] at hfs
          exact pref_trans hfs.2.2.1 (hmem hjm)
      apply ih
      · omega
      · omega
      · exact hj2le
      · exact hmem2
      · -- extended failure knowledge for the next border candidate of i - 1
        intro u hu1 hu2 habs
        by_cases hcase1 : u + 1 < j
        · exact hWI u hu1 hcase1 habs
        · by_cases hcase2 : u + 1 = j
          · have hext := (drop_pref_extend p hi1 him (k := u + 1) (by omega)
              (by omega)).1 (by rwa [Nat.add_sub_cancel])
            rw [Nat.add_sub_cancel] at hext
            have huj : u = j - 1 := by omega
            rw [huj] at hext
            exact hmis hext.1.symm
          · have hext := (drop_pref_extend p hi1 him (k := u + 1) (by omega)
              (by omega)).1 (by rwa [Nat.add_sub_cancel])
            rw [Nat.add_sub_cancel] at hext
            exact hCNM (u + 1) (by omega) (by omega) hext.2
      · -- WI3 for the enlarged prefix of the chain
        intro q hq hiq hval hlt
        by_cases hq1 : q + 1 < j
        · have := hWI3 q hq hiq hval hq1
          by_cases hset : shift.getD (j - 1) 0 = p.length
          · rw [if_pos hset, getD_set_ne (by omega)]
            exact this
          · rw [if_neg hset]
            exact this
        · by_cases hq2 : q + 1 = j
          · have hqj : q = j - 1 := by omega
            by_cases hset : shift.getD (j - 1) 0 = p.length
            · rw [if_pos hset, hqj, getD_set_self (by omega)]
              omega
            · rw [if_neg hset]
              rcases hI5 q hq with hA | hB
              · rw [hqj] at hA
                exact absurd hA hset
              · omega
          · exfalso
            exact hCNM (q + 1) (by omega) (by omega) hval.1
      · -- I4 is preserved by the (first-write-only) assignment
        intro q hq i2 hi2 hi2q hval
        by_cases hset : shift.getD (j - 1) 0 = p.length
        · rw [if_pos hset]
          by_cases hqj : q = j - 1
          · exfalso
            have := hI4 q hq i2 hi2 hi2q hval
            rw [hqj] at this
            omega
          · rw [getD_set_ne (by omega)]
            exact hI4 q hq i2 hi2 hi2q hval
        · rw [if_neg hset]
          exact hI4 q hq i2 hi2 hi2q hval
      · -- I5 is preserved
        intro q hq
        by_cases hset : shift.getD (j - 1) 0 = p.length
        · by_cases hqj : q = j - 1
          · rw [if_pos hset, hqj, getD_set_self (by omega)]
            right
            refine ⟨by omega, by omega, by omega⟩
          · rw [if_pos hset, getD_set_ne (by omega)]
            exact hI5 q hq
        · rw [if_neg hset]
          exact hI5 q hq
      · by_cases hset : shift.getD (j - 1) 0 = p.length
        · rw [if_pos hset, List.length_set]
          exact hlen
        · rw [if_neg hset]
          exact hlen
    · rw [if_neg hcond]
      push_neg at hcond
      refine ⟨?_, hij, hjle, hlen, ?_, ?_⟩
      · -- the walk has found the widest border start for the suffix at i - 1
        by_cases hjm : j ≤ p.length
        · have hmatch := hcond hjm
          rw [isFSuf, if_neg (by omega)]
          refine ⟨by omega, by omega, ?_, ?_⟩
          · have := (drop_pref_extend p hi1 him (k := j) (by omega) hjm).2
              ⟨hmatch.symm, hmem hjm⟩
            exact this
          · intro u hu1 hu2
            exact hWI u (by omega) (by omega)
        · have hjeq : j = p.length + 1 := by omega
          rw [isFSuf, if_neg (by omega)]
          refine ⟨by omega, by omega, ?_, ?_⟩
          · have hj1 : j - 1 = p.length := by omega
            rw [hj1, List.drop_length]
            exact List.nil_prefix
          · intro u hu1 hu2
            exact hWI u (by omega) (by omega)
      · intro q hq i2 hi2 hi2q hval
        by_cases hi2i : i < i2
        · exact hI4 q hq i2 hi2i hi2q hval
        · have hi2eq : i2 = i := by omega
          subst hi2eq
          by_cases hq1 : q + 1 < j
          · exact hWI3 q hq (by omega) hval hq1
          · by_cases hq2 : q + 1 = j
            · exfalso
              by_cases hjm : j ≤ p.length
              · have hmatch := hcond hjm
                apply hval.2
                have hqj : q = j - 1 := by omega
                rw [hqj]
                exact hmatch
              · omega
            · have hjm : j ≤ p.length := by omega
              have hmatch := hcond hjm
              have hchain : p.drop (q + 1) <+: p.drop j :=
                drop_pref_of_drop_pref (hmem hjm) hval.1 (by omega)
              have hvj : validAt p j q := by
                refine ⟨hchain, ?_⟩
                intro habs
                apply hval.2
                rw [← habs]
                exact hmatch
              have h9 := hI4 q hq j (by omega) (by omega) hvj
              show shift.getD q 0 ≤ q + 1 - i2
              omega
      · exact hI5


theorem gsOuter_spec (p : List Char) (hm : 1 ≤ p.length) :
    ∀ (fuel i : Nat) (j : Nat) (shift border : List Nat),
      i < fuel → i ≤ p.length →
      shift.length = p.length → border.length = p.length + 1 →
      (∀ k, i ≤ k → k ≤ p.length → isFSuf p k (border.getD k 0)) →
      j = border.getD i 0 →
      (∀ q, q < p.length → ∀ i2, i < i2 → i2 ≤ q → validAt p i2 q →
        shift.getD q 0 ≤ q + 1 - i2) →
      (∀ q, q < p.length → shift.getD q 0 = p.length ∨
        (1 ≤ shift.getD q 0 ∧ shift.getD q 0 ≤ q + 1 - i ∧ shift.getD q 0 ≤ q)) →
      ((gsOuterGo p fuel i j shift border).1.length = p.length ∧
       (gsOuterGo p fuel i j shift border).2.length = p.length + 1 ∧
       (∀ k, k ≤ p.length → isFSuf p k ((gsOuterGo p fuel i j shift border).2.getD k 0)) ∧
       (∀ q, q < p.length → ∀ i2, 0 < i2 → i2 ≤ q → validAt p i2 q →
         (gsOuterGo p fuel i j shift border).1.getD q 0 ≤ q + 1 - i2) ∧
       (∀ q, q < p.length → (gsOuterGo p fuel i j shift border).1.getD q 0 = p.length ∨
         (1 ≤ (gsOuterGo p fuel i j shift border).1.getD q 0 ∧
          (gsOuterGo p fuel i j shift border).1.getD q 0 ≤ q))) := by
  intro fuel
  induction fuel with
  | zero => intro i j shift border hfuel; omega
  | succ f ih =>
    intro i j shift border hfuel him hslen hblen hb2 hjdef hI4 hI5
    rw [gsOuterGo]
    by_cases hi0 : 0 < i
    · rw [if_pos hi0]
      -- the inner walk at index i
      have hfsi : isFSuf p i j := hjdef ▸ hb2 i (le_refl i) him
      have hij : i < j := isFSuf_lt hfsi
      have hjle : j ≤ p.length + 1 := isFSuf_le hfsi
      have hmem : j ≤ p.length → p.drop j <+: p.drop i := by
        intro hjm
        by_cases him2 : i = p.length
        · rw [isFSuf, if_pos him2] at hfsi
          omega
        · rw [isFSuf, if_neg him2] at hfsi
          exact hfsi.2.2.1
      have hWI : ∀ u, i ≤ u → u + 1 < j → ¬ (p.drop u <+: p.drop (i - 1)) := by
        intro u hu1 hu2 habs
        by_cases him2 : i = p.length
        · rw [isFSuf, if_pos him2] at hfsi
          omega
        · rw [isFSuf, if_neg him2] at hfsi
          have hext := (drop_pref_extend p hi0 him (k := u + 1) (by omega)
            (by omega)).1 (by rwa [Nat.add_sub_cancel])
          rw [Nat.add_sub_cancel] at hext
          exact hfsi.2.2.2 (u + 1) (by omega) hu2 hext.2
      have hWI3 : ∀ q, q < p.length → i ≤ q → validAt p i q → q + 1 < j →
          shift.getD q 0 ≤ q + 1 - i := by
        intro q hq hiq hval hlt
        exfalso
        by_cases him2 : i = p.length
        · omega
        · rw [isFSuf, if_neg him2] at hfsi
          exact hfsi.2.2.2 (q + 1) (by omega) hlt hval.1
      have hinner := gsInner_spec p i border hm hi0 him hb2 (p.length + 2) j shift
        (by omega) hij hjle hmem hWI hWI3 hI4 hI5 hslen
      obtain ⟨hCa, hCb, hCc, hCd, hCe, hCf⟩ := hinner
      apply ih
      · omega
      · omega
      · exact hCd
      · rw [List.length_set]
        exact hblen
      · intro k hk1 hk2
        by_cases hki : k = i - 1
        · rw [hki, getD_set_self (by omega)]
          exact hCa
        · rw [getD_set_ne (by omega)]
          exact hb2 k (by omega) hk2
      · rw [getD_set_self (by omega)]
      · exact hCe
      · intro q hq
        rcases hCf q hq with hA | hB
        · exact Or.inl hA
        · exact Or.inr ⟨hB.1, by omega, hB.2.2⟩
    · rw [if_neg hi0]
      have hieq : i = 0 := by omega
      subst hieq
      refine ⟨hslen, hblen, ?_, ?_, ?_⟩
      · intro k hk
        exact hb2 k (by omega) hk
      · intro q hq i2 h1 h2 hval
        exact hI4 q hq i2 (by omega) h2 hval
      · intro q hq
        rcases hI5 q hq with hA | hB
        · exact Or.inl hA
        · exact Or.inr ⟨hB.1, hB.2.2⟩


theorem gsPhase2_spec (p : List Char) (_hm : 1 ≤ p.length) (border : List Nat)
    (hb : ∀ k, k ≤ p.length → isFSuf p k (border.getD k 0)) :
    ∀ (cnt i j : Nat) (shift : List Nat),
      i + cnt = p.length →
      shift.length = p.length →
      1 ≤ j → i ≤ j → j ≤ p.length →
      p.drop j <+: p →
      (∀ u, i ≤ u → 0 < u → u < j → ¬ (p.drop u <+: p)) →
      (∀ q, q < p.length → ∀ i2, 0 < i2 → i2 ≤ q → validAt p i2 q →
        shift.getD q 0 ≤ q + 1 - i2) →
      (∀ q, q < p.length → 1 ≤ shift.getD q 0) →
      (∀ q, i ≤ q → q < p.length →
        shift.getD q 0 = p.length ∨ shift.getD q 0 ≤ q) →
      (∀ q, q < i → ∀ r, q < r → r < shift.getD q 0 → ¬ (p.drop r <+: p)) →
      (∀ q, q < i → shift.getD q 0 ≤ p.length) →
      ((gsPhase2Go border p.length cnt i j shift).length = p.length ∧
       (∀ q, q < p.length → ∀ i2, 0 < i2 → i2 ≤ q → validAt p i2 q →
         (gsPhase2Go border p.length cnt i j shift).getD q 0 ≤ q + 1 - i2) ∧
       (∀ q, q < p.length → 1 ≤ (gsPhase2Go border p.length cnt i j shift).getD q 0 ∧
         (gsPhase2Go border p.length cnt i j shift).getD q 0 ≤ p.length) ∧
       (∀ q, q < p.length → ∀ r, q < r →
         r < (gsPhase2Go border p.length cnt i j shift).getD q 0 →
         ¬ (p.drop r <+: p))) := by
  intro cnt
  induction cnt with
  | zero =>
    intro i j shift hcnt hslen hj1 hij hjm hdj hmin hPA hpos hunproc hPC hPBp
    have hieq : i = p.length := by omega
    subst hieq
    refine ⟨hslen, hPA, ?_, ?_⟩
    · intro q hq
      exact ⟨hpos q hq, hPBp q (by omega)⟩
    · intro q hq
      exact hPC q (by omega)
  | succ c ih =>
    intro i j shift hcnt hslen hj1 hij hjm hdj hmin hPA hpos hunproc hPC hPBp
    have him : i < p.length := by omega
    rw [gsPhase2Go]
    by_cases hset : shift.getD i 0 = p.length
    · rw [if_pos hset]
      by_cases hijq : i = j
      · rw [if_pos hijq]
        have hfs : isFSuf p j (border.getD j 0) := hb j hjm
        have hjlt : j < border.getD j 0 := isFSuf_lt hfs
        have hjm2 : j ≠ p.length := by omega
        rw [isFSuf, if_neg hjm2] at hfs
        apply ih
        · omega
        · rw [List.length_set]; exact hslen
        · omega
        · omega
        · exact hfs.2.1
        · exact pref_trans hfs.2.2.1 hdj
        · intro u hu1 hu2 hu3 habs
          refine hfs.2.2.2 u (by omega) hu3 ?_
          apply drop_pref_of_drop_pref (i := 0) ?_ ?_ (by omega)
          · rw [List.drop_zero]; exact hdj
          · rw [List.drop_zero]; exact habs
        · intro q hq i2 h1 h2 hval
          by_cases hqi : q = i
          · exfalso
            have := hPA q hq i2 h1 h2 hval
            rw [hqi] at this
            omega
          · rw [getD_set_ne (by omega)]
            exact hPA q hq i2 h1 h2 hval
        · intro q hq
          by_cases hqi : q = i
          · rw [hqi, getD_set_self (by omega)]
            omega
          · rw [getD_set_ne (by omega)]
            exact hpos q hq
        · intro q hq1 hq2
          rw [getD_set_ne (by omega)]
          exact hunproc q (by omega) hq2
        · intro q hq r hr1 hr2
          by_cases hqi : q = i
          · rw [hqi, getD_set_self (by omega)] at hr2
            intro habs
            exact hmin r (by omega) (by omega) (by rw [← hijq] at hr2 ⊢; omega) habs
          · rw [getD_set_ne (by omega)] at hr2
            exact hPC q (by omega) r hr1 hr2
        · intro q hq
          by_cases hqi : q = i
          · rw [hqi, getD_set_self (by omega)]
            omega
          · rw [getD_set_ne (by omega)]
            exact hPBp q (by omega)
      · rw [if_neg hijq]
        apply ih
        · omega
        · rw [List.length_set]; exact hslen
        · omega
        · omega
        · exact hjm
        · exact hdj
        · intro u hu1 hu2 hu3
          exact hmin u (by omega) hu2 hu3
        · intro q hq i2 h1 h2 hval
          by_cases hqi : q = i
          · exfalso
            have := hPA q hq i2 h1 h2 hval
            rw [hqi] at this
            omega
          · rw [getD_set_ne (by omega)]
            exact hPA q hq i2 h1 h2 hval
        · intro q hq
          by_cases hqi : q = i
          · rw [hqi, getD_set_self (by omega)]
            omega
          · rw [getD_set_ne (by omega)]
            exact hpos q hq
        · intro q hq1 hq2
          rw [getD_set_ne (by omega)]
          exact hunproc q (by omega) hq2
        · intro q hq r hr1 hr2
          by_cases hqi : q = i
          · rw [hqi, getD_set_self (by omega)] at hr2
            intro habs
            exact hmin r (by omega) (by omega) (by omega) habs
          · rw [getD_set_ne (by omega)] at hr2
            exact hPC q (by omega) r hr1 hr2
        · intro q hq
          by_cases hqi : q = i
          · rw [hqi, getD_set_self (by omega)]
            omega
          · rw [getD_set_ne (by omega)]
            exact hPBp q (by omega)
    · rw [if_neg hset]
      have holdle : shift.getD i 0 ≤ i := by
        rcases hunproc i (le_refl i) him with hA | hB
        · exact absurd hA hset
        · exact hB
      by_cases hijq : i = j
      · rw [if_pos hijq]
        have hfs : isFSuf p j (border.getD j 0) := hb j hjm
        have hjlt : j < border.getD j 0 := isFSuf_lt hfs
        have hjm2 : j ≠ p.length := by omega
        rw [isFSuf, if_neg hjm2] at hfs
        apply ih
        · omega
        · exact hslen
        · omega
        · omega
        · exact hfs.2.1
        · exact pref_trans hfs.2.2.1 hdj
        · intro u hu1 hu2 hu3 habs
          refine hfs.2.2.2 u (by omega) hu3 ?_
          apply drop_pref_of_drop_pref (i := 0) ?_ ?_ (by omega)
          · rw [List.drop_zero]; exact hdj
          · rw [List.drop_zero]; exact habs
        · exact hPA
        · exact hpos
        · intro q hq1 hq2
          exact hunproc q (by omega) hq2
        · intro q hq r hr1 hr2
          by_cases hqi : q = i
          · rw [hqi] at hr2
            omega
          · exact hPC q (by omega) r hr1 hr2
        · intro q hq
          by_cases hqi : q = i
          · rw [hqi]
            omega
          · exact hPBp q (by omega)
      · rw [if_neg hijq]
        apply ih
        · omega
        · exact hslen
        · omega
        · omega
        · exact hjm
        · exact hdj
        · intro u hu1 hu2 hu3
          exact hmin u (by omega) hu2 hu3
        · exact hPA
        · exact hpos
        · intro q hq1 hq2
          exact hunproc q (by omega) hq2
        · intro q hq r hr1 hr2
          by_cases hqi : q = i
          · rw [hqi] at hr2
            omega
          · exact hPC q (by omega) r hr1 hr2
        · intro q hq
          by_cases hqi : q = i
          · rw [hqi]
            omega
          · exact hPBp q (by omega)


theorem getD_replicate_self {n a k : Nat} (hk : k < n) :
    (List.replicate n a).getD k 0 = a := by
  rw [List.getD_eq_getElem?_getD, List.getElem?_replicate, if_pos hk]
  rfl

theorem good_suffix_bundle (p : List Char) (hm : p.length ≠ 0) :
    (good_suffix_table p).length = p.length ∧
    (∀ q, q < p.length → 1 ≤ (good_suffix_table p).getD q 0 ∧
      (good_suffix_table p).getD q 0 ≤ p.length) ∧
    (∀ q, q < p.length → ∀ i2, 0 < i2 → i2 ≤ q → validAt p i2 q →
      (good_suffix_table p).getD q 0 ≤ q + 1 - i2) ∧
    (∀ q, q < p.length → ∀ r, q < r → r < (good_suffix_table p).getD q 0 →
      ¬ (p.drop r <+: p)) := by
  have hm1 : 1 ≤ p.length := by omega
  have hbl : ((List.replicate (p.length + 1) 0).set p.length (p.length + 1)).length
      = p.length + 1 := by
    rw [List.length_set, List.length_replicate]
  have hbm : ((List.replicate (p.length + 1) 0).set p.length (p.length + 1)).getD
      p.length 0 = p.length + 1 := by
    apply getD_set_self
    rw [List.length_replicate]
    omega
  have houter := gsOuter_spec p hm1 (p.length + 1) p.length (p.length + 1)
    (List.replicate p.length p.length)
    ((List.replicate (p.length + 1) 0).set p.length (p.length + 1))
    (by omega) (le_refl _)
    (by rw [List.length_replicate]) hbl
    (by
      intro k hk1 hk2
      have hkm : k = p.length := by omega
      subst hkm
      rw [hbm, isFSuf, if_pos rfl])
    (by rw [hbm])
    (by intro q hq i2 h1 h2; omega)
    (by
      intro q hq
      left
      exact getD_replicate_self hq)
  obtain ⟨hol, hobl, hob, hoPA, hoI5⟩ := houter
  have hf0 := hob 0 (by omega)
  rw [isFSuf, if_neg (by omega)] at hf0
  have hphase := gsPhase2_spec p hm1 (gsOuterGo p (p.length + 1) p.length (p.length + 1)
      (List.replicate p.length p.length)
      ((List.replicate (p.length + 1) 0).set p.length (p.length + 1))).2 hob
    p.length 0
    ((gsOuterGo p (p.length + 1) p.length (p.length + 1)
      (List.replicate p.length p.length)
      ((List.replicate (p.length + 1) 0).set p.length (p.length + 1))).2.getD 0 0)
    (gsOuterGo p (p.length + 1) p.length (p.length + 1)
      (List.replicate p.length p.length)
      ((List.replicate (p.length + 1) 0).set p.length (p.length + 1))).1
    (by omega) hol (by omega) (by omega) (by omega)
    (by
      have := hf0.2.2.1
      rwa [List.drop_zero] at this)
    (by
      intro u hu1 hu2 hu3 habs
      refine hf0.2.2.2 u hu2 hu3 ?_
      rwa [List.drop_zero])
    hoPA
    (by
      intro q hq
      rcases hoI5 q hq with hA | hB
      · omega
      · exact hB.1)
    (by
      intro q hq1 hq2
      rcases hoI5 q hq2 with hA | hB
      · exact Or.inl hA
      · exact Or.inr hB.2)
    (by intro q hq; omega)
    (by intro q hq; omega)
  obtain ⟨hL, hPA, hB, hPC⟩ := hphase
  rw [good_suffix_table]
  exact ⟨hL, hB, hPA, hPC⟩

theorem drop_pref_iff_getD (p : List Char) {a b : Nat} (hba : b ≤ a) (ha : a ≤ p.length) :
    (p.drop a <+: p.drop b) ↔
      (∀ k, a ≤ k → k < p.length → p.getD (k - a + b) default = p.getD k default) := by
  rw [List.isPrefix_iff]
  constructor
  · intro h k hk1 hk2
    have hlt : k - a < (p.drop a).length := by
      rw [List.length_drop]
      omega
    have hsome := h (k - a) hlt
    rw [List.getElem_drop] at hsome
    have hlt2 : k - a < (p.drop b).length := by
      rw [List.length_drop]
      omega
    rw [List.getElem?_eq_getElem hlt2, List.getElem_drop] at hsome
    have hd1 : b + (k - a) < p.length := by omega
    have hd2 : a + (k - a) < p.length := by omega
    have heq : p.getD (b + (k - a)) default = p.getD (a + (k - a)) default := by
      rw [List.getD_eq_getElem p default hd1, List.getD_eq_getElem p default hd2]
      exact Option.some.inj hsome
    have he1 : b + (k - a) = k - a + b := by omega
    have he2 : a + (k - a) = k := by omega
    rw [he1, he2] at heq
    exact heq
  · intro h i hi
    have him : a + i < p.length := by
      rw [List.length_drop] at hi
      omega
    have hbm : b + i < p.length := by omega
    have hlt2 : i < (p.drop b).length := by
      rw [List.length_drop]
      omega
    rw [List.getElem?_eq_getElem hlt2, List.getElem_drop, List.getElem_drop]
    have := h (a + i) (by omega) him
    have he : a + i - a + b = b + i := by omega
    rw [he] at this
    rw [List.getD_eq_getElem p default hbm, List.getD_eq_getElem p default him] at this
    exact congrArg some this

theorem validR_to_validAt {p : List Char} {r q : Nat} (h : validR p r q)
    (hr1 : 1 ≤ r) (hrq : r ≤ q) (hq : q < p.length) : validAt p (q + 1 - r) q := by
  constructor
  · rw [drop_pref_iff_getD p (by omega) (by omega)]
    intro k hk1 hk2
    have hh := h.1 k (by omega) hk2 (by omega)
    have harith : k - (q + 1) + (q + 1 - r) = k - r := by omega
    rw [harith]
    exact hh
  · have hh := h.2 hrq
    have harith : q + 1 - r - 1 = q - r := by omega
    rw [harith]
    exact hh

theorem validR_gt_to_pref {p : List Char} {r q : Nat} (h : validR p r q)
    (hqr : q < r) (hrm : r ≤ p.length) : p.drop r <+: p := by
  have h0 : p.drop r <+: p.drop 0 := by
    rw [drop_pref_iff_getD p (by omega) hrm]
    intro k hk1 hk2
    have hh := h.1 k (by omega) hk2 (by omega)
    have harith : k - r + 0 = k - r := by omega
    rw [harith]
    exact hh
  rwa [List.drop_zero] at h0

theorem gs_safety (p : List Char) (hm : p.length ≠ 0) :
    ∀ q, q < p.length → ∀ r, 1 ≤ r → r < (good_suffix_table p).getD q 0 →
      ¬ validR p r q := by
  intro q hq r h1 h2 hval
  obtain ⟨-, hbnd, hPA, hPC⟩ := good_suffix_bundle p hm
  by_cases hrq : r ≤ q
  · have := hPA q hq (q + 1 - r) (by omega) (by omega) (validR_to_validAt hval h1 hrq hq)
    omega
  · have hrm : r ≤ p.length := by
      have := (hbnd q hq).2
      omega
    exact hPC q hq r (by omega) h2 (validR_gt_to_pref hval (by omega) hrm)

theorem gs_pos (p : List Char) (hm : p.length ≠ 0) :
    ∀ q, q < p.length → 1 ≤ (good_suffix_table p).getD q 0 := by
  intro q hq
  exact ((good_suffix_bundle p hm).2.1 q hq).1

/-- C4: for every non-empty pattern, every mismatch position j and every
text symbol, the Boyer-Moore advance
`max(j - bad_char.get(text[s+j], -1), good_suffix[j])` is at least 1 (the
good-suffix component alone is at least 1), so the shift strictly
increases after every mismatch, in the plain and instrumented scans alike. -/
theorem claim_C4_bm_shift_pos (p : List Char) (hp : p ≠ []) (j : Nat)
    (hj : j < p.length) (c : Char) :
    1 ≤ max ((j : Int) - bad_character_table p c)
      ((good_suffix_table p).getD j 0 : Int) := by
  have hm : p.length ≠ 0 := by simpa using hp
  have h1 := gs_pos p hm j hj
  have h2 : (1 : Int) ≤ ((good_suffix_table p).getD j 0 : Int) := by exact_mod_cast h1
  exact le_trans h2 (le_max_right _ _)

theorem claim_C4_bm_shift_pos_witness :
    ((['A', 'B'] : List Char) ≠ [] ∧ 1 < (['A', 'B'] : List Char).length)
      ∧ 1 ≤ max ((1 : Int) - bad_character_table (['A', 'B']) ('C'))
          ((good_suffix_table (['A', 'B'])).getD 1 0 : Int) :=
  ⟨⟨by decide, by decide⟩, claim_C4_bm_shift_pos (['A', 'B']) (by decide) 1 (by decide) ('C')⟩


theorem matchAt_of_getD {t p : List Char} {o : Nat} (hn : o + p.length ≤ t.length)
    (h : ∀ k, k < p.length → p.getD k default = t.getD (o + k) default) :
    matchAt t p o := by
  rw [matchAt]
  apply List.ext_getElem
  · rw [List.length_take, List.length_drop]
    omega
  · intro i h1 h2
    have hi : i < p.length := h2
    have hod : o + i < t.length := by omega
    have hgd := h i hi
    rw [List.getD_eq_getElem p default hi, List.getD_eq_getElem t default hod] at hgd
    rw [List.getElem_take, List.getElem_drop]
    exact hgd.symm

theorem bc_fold_spec (p : List Char) :
    ∀ (N : Nat) (c : Char),
      (-1 : Int) ≤ ((List.range N).foldl
          (fun f i => fun c2 => if c2 = p.getD i default then (i : Int) else f c2)
          (fun _ => (-1 : Int))) c ∧
      ((List.range N).foldl
          (fun f i => fun c2 => if c2 = p.getD i default then (i : Int) else f c2)
          (fun _ => (-1 : Int))) c < (N : Int) ∧
      ∀ k, k < N → p.getD k default = c →
        (k : Int) ≤ ((List.range N).foldl
          (fun f i => fun c2 => if c2 = p.getD i default then (i : Int) else f c2)
          (fun _ => (-1 : Int))) c := by
  intro N
  induction N with
  | zero =>
    intro c
    simp only [List.range_zero, List.foldl_nil]
    refine ⟨le_refl _, by omega, ?_⟩
    intro k hk
    omega
  | succ n ih =>
    intro c
    obtain ⟨h1, h2, h3⟩ := ih c
    have hstep : ((List.range (n + 1)).foldl
        (fun f i => fun c2 => if c2 = p.getD i default then (i : Int) else f c2)
        (fun _ => (-1 : Int))) c
        = if c = p.getD n default then (n : Int) else
          ((List.range n).foldl
            (fun f i => fun c2 => if c2 = p.getD i default then (i : Int) else f c2)
            (fun _ => (-1 : Int))) c := by
      rw [List.range_succ, List.foldl_append, List.foldl_cons, List.foldl_nil]
    rw [hstep]
    clear ih hstep
    by_cases hc : c = p.getD n default
    · rw [if_pos hc]
      clear h1 h2 h3
      refine ⟨?_, ?_, ?_⟩
      · omega
      · omega
      · intro k hk hkc
        omega
    · rw [if_neg hc]
      generalize hF : ((List.range n).foldl
          (fun f i => fun c2 => if c2 = p.getD i default then (i : Int) else f c2)
          (fun _ => (-1 : Int))) c = Fc at h1 h2 h3 ⊢
      clear hF
      refine ⟨h1, by omega, ?_⟩
      intro k hk hkc
      have hkn : k ≠ n := by
        intro he
        subst he
        exact hc hkc.symm
      exact h3 k (by omega) hkc

theorem bad_char_ge_neg_one (p : List Char) (c : Char) :
    (-1 : Int) ≤ bad_character_table p c :=
  (bc_fold_spec p p.length c).1

theorem bad_char_ge (p : List Char) {c : Char} {k : Nat} (hk : k < p.length)
    (hc : p.getD k default = c) : (k : Int) ≤ bad_character_table p c :=
  (bc_fold_spec p p.length c).2.2 k hk hc

theorem bmScan_none_spec (t p : List Char) (s : Nat) :
    ∀ k, bmScan t p s k = none →
      ∀ j, j < k → p.getD j default = t.getD (s + j) default := by
  intro k
  induction k with
  | zero => intro _ j hj; omega
  | succ k ih =>
    intro hs j hj
    rw [bmScan] at hs
    by_cases he : p.getD k default = t.getD (s + k) default
    · rw [if_pos he] at hs
      by_cases hjk : j = k
      · subst hjk
        exact he
      · exact ih hs j (by omega)
    · rw [if_neg he] at hs
      exact absurd hs (by simp)

theorem bmScan_some_spec (t p : List Char) (s : Nat) :
    ∀ k j, bmScan t p s k = some j →
      j < k ∧ p.getD j default ≠ t.getD (s + j) default ∧
      ∀ u, j < u → u < k → p.getD u default = t.getD (s + u) default := by
  intro k
  induction k with
  | zero => intro j hs; exact absurd hs (by simp [bmScan])
  | succ k ih =>
    intro j hs
    rw [bmScan] at hs
    by_cases he : p.getD k default = t.getD (s + k) default
    · rw [if_pos he] at hs
      obtain ⟨h1, h2, h3⟩ := ih j hs
      refine ⟨by omega, h2, ?_⟩
      intro u hu1 hu2
      by_cases huk : u = k
      · subst huk
        exact he
      · exact h3 u hu1 (by omega)
    · rw [if_neg he] at hs
      have hj := Option.some.inj hs
      subst hj
      exact ⟨by omega, he, fun u hu1 hu2 => by omega⟩

theorem bm_mismatch_safety (t p : List Char) (hm : p.length ≠ 0) {s j : Nat}
    (_hsn : s + p.length ≤ t.length) (hj : j < p.length)
    (hne : p.getD j default ≠ t.getD (s + j) default)
    (hmatch : ∀ u, j < u → u < p.length → p.getD u default = t.getD (s + u) default)
    (r : Nat) (hr1 : 1 ≤ r)
    (hrlt : (r : Int) < max ((j : Int) - bad_character_table p (t.getD (s + j) default))
      ((good_suffix_table p).getD j 0 : Int)) :
    ¬ matchAt t p (s + r) := by
  intro hmo
  have hadd := matchAt_add_le hmo hm
  rcases lt_max_iff.1 hrlt with hbc | hgs
  · have hneg1 := bad_char_ge_neg_one p (t.getD (s + j) default)
    have hrj : r ≤ j := by omega
    have hcell := matchAt_getD hmo hadd (show j - r < p.length by omega)
    have harith : s + r + (j - r) = s + j := by omega
    rw [harith] at hcell
    have hge := bad_char_ge p (show j - r < p.length by omega) hcell
    omega
  · have hgsn : r < (good_suffix_table p).getD j 0 := by exact_mod_cast hgs
    apply gs_safety p hm j hj r hr1 hgsn
    constructor
    · intro k hk1 hk2 hk3
      have hcell := matchAt_getD hmo hadd (show k - r < p.length by omega)
      have harith : s + r + (k - r) = s + k := by omega
      rw [harith] at hcell
      rw [hcell]
      exact (hmatch k hk1 hk2).symm
    · intro hrle
      have hcell := matchAt_getD hmo hadd (show j - r < p.length by omega)
      have harith : s + r + (j - r) = s + j := by omega
      rw [harith] at hcell
      rw [hcell]
      intro he
      exact hne he.symm

theorem bm_match_safety (t p : List Char) (hm : p.length ≠ 0) {s : Nat}
    (_hsn : s + p.length ≤ t.length)
    (hfull : ∀ u, u < p.length → p.getD u default = t.getD (s + u) default)
    (r : Nat) (hr1 : 1 ≤ r) (hr2 : r < (good_suffix_table p).getD 0 0) :
    ¬ matchAt t p (s + r) := by
  intro hmo
  have hadd := matchAt_add_le hmo hm
  apply gs_safety p hm 0 (by omega) r hr1 hr2
  constructor
  · intro k hk1 hk2 hk3
    have hcell := matchAt_getD hmo hadd (show k - r < p.length by omega)
    have harith : s + r + (k - r) = s + k := by omega
    rw [harith] at hcell
    rw [hcell]
    exact (hfull k hk2).symm
  · intro hrle
    omega

theorem bmGo_spec (t p : List Char) (hm : p.length ≠ 0) :
    ∀ (fuel s : Nat) (ms : List Nat),
      t.length + 1 - s < fuel →
      bmGo t p (bad_character_table p) (good_suffix_table p) fuel s ms =
        ms ++ (matchOffsets t p).filter (fun o => decide (s ≤ o)) := by
  intro fuel
  induction fuel with
  | zero => intro s ms h1; omega
  | succ f ih =>
    intro s ms h1
    rw [bmGo]
    by_cases hsn : s + p.length ≤ t.length
    · rw [if_pos hsn]
      cases hsc : bmScan t p s p.length with
      | none =>
        have hfull := bmScan_none_spec t p s p.length hsc
        have hms : matchAt t p s := matchAt_of_getD hsn hfull
        change bmGo t p (bad_character_table p) (good_suffix_table p) f
          (s + (if s + p.length < t.length then (good_suffix_table p).getD 0 0 else 1))
          (ms ++ [s]) = _
        set adv := if s + p.length < t.length then (good_suffix_table p).getD 0 0 else 1
          with hadv
        have hadv1 : 1 ≤ adv := by
          rw [hadv]
          by_cases hlt : s + p.length < t.length
          · rw [if_pos hlt]
            exact gs_pos p hm 0 (by omega)
          · rw [if_neg hlt]
        have hsafe : ∀ r, 1 ≤ r → r < adv → ¬ matchAt t p (s + r) := by
          intro r hr1 hr2
          rw [hadv] at hr2
          by_cases hlt : s + p.length < t.length
          · rw [if_pos hlt] at hr2
            exact bm_match_safety t p hm hsn hfull r hr1 hr2
          · rw [if_neg hlt] at hr2
            omega
        rw [ih (s + adv) (ms ++ [s]) (by omega)]
        rw [List.append_assoc]
        congr 1
        have hsplit : (matchOffsets t p).filter (fun o => decide (s ≤ o)) =
            s :: (matchOffsets t p).filter (fun o => decide (s + adv ≤ o)) := by
          rw [matchOffsets, List.filter_filter, List.filter_filter]
          apply filter_range_cons_min (a := s) (by omega)
          · simp only [Bool.and_eq_true, decide_eq_true_eq]
            exact ⟨le_refl s, hms⟩
          · simp only [Bool.and_eq_false_iff, decide_eq_false_iff_not]
            left
            omega
          · intro o hne
            by_cases hmo : matchAt t p o
            · by_cases hso : o < s
              · have hc1 : ¬ (s ≤ o) := by omega
                have hc2 : ¬ (s + adv ≤ o) := by omega
                simp [hc1, hc2]
              · by_cases hbig : s + adv ≤ o
                · have hc1 : s ≤ o := by omega
                  simp [hc1, hbig]
                · have hmid := hsafe (o - s) (by omega) (by omega)
                  have hr : o = s + (o - s) := by omega
                  rw [← hr] at hmid
                  exact absurd hmo hmid
            · simp [hmo]
          · intro o hlt
            have hc1 : ¬ (s ≤ o) := by omega
            simp [hc1]
        rw [hsplit]
        rfl
      | some j =>
        obtain ⟨hjm, hne, hmatch⟩ := bmScan_some_spec t p s p.length j hsc
        have hnoms : ¬ matchAt t p s := by
          intro hmo
          exact hne (matchAt_getD hmo hsn hjm)
        change bmGo t p (bad_character_table p) (good_suffix_table p) f
          (s + (max ((j : Int) - bad_character_table p (t.getD (s + j) default))
            (((good_suffix_table p).getD j 0 : Int))).toNat) ms = _
        set adv := (max ((j : Int) - bad_character_table p (t.getD (s + j) default))
          (((good_suffix_table p).getD j 0 : Int))).toNat with hadv
        have hgs1 : 1 ≤ (good_suffix_table p).getD j 0 := gs_pos p hm j hjm
        have hadv1 : 1 ≤ adv := by
          rw [hadv]
          have hmx : (1 : Int) ≤ max ((j : Int) -
              bad_character_table p (t.getD (s + j) default))
              ((good_suffix_table p).getD j 0 : Int) :=
            le_trans (by exact_mod_cast hgs1) (le_max_right _ _)
          omega
        have hsafe : ∀ r, 1 ≤ r → r < adv → ¬ matchAt t p (s + r) := by
          intro r hr1 hr2
          apply bm_mismatch_safety t p hm hsn hjm hne hmatch r hr1
          rw [hadv] at hr2
          omega
        rw [ih (s + adv) ms (by omega)]
        congr 1
        apply List.filter_congr
        intro o ho
        have hmo : matchAt t p o := by
          rw [matchOffsets, List.mem_filter] at ho
          simpa using ho.2
        by_cases hso : o < s
        · have hc1 : ¬ (s ≤ o) := by omega
          have hc2 : ¬ (s + adv ≤ o) := by omega
          simp [hc1, hc2]
        · by_cases hbig : s + adv ≤ o
          · have hc1 : s ≤ o := by omega
            simp [hc1, hbig]
          · by_cases hos : o = s
            · exact absurd (hos ▸ hmo) hnoms
            · have hmid := hsafe (o - s) (by omega) (by omega)
              have hr : s + (o - s) = o := by omega
              rw [hr] at hmid
              exact absurd hmo hmid
    · rw [if_neg hsn]
      have hempty : (matchOffsets t p).filter (fun o => decide (s ≤ o)) = [] := by
        apply List.filter_eq_nil_iff.2
        intro o ho
        rw [matchOffsets, List.mem_filter, List.mem_range] at ho
        have hmo : matchAt t p o := by simpa using ho.2
        have hol := matchAt_add_le hmo hm
        simp only [decide_eq_true_eq]
        omega
      rw [hempty, List.append_nil]

theorem bm_eq_matchOffsets (t p : List Char) (h1 : p.length ≠ 0)
    (h2 : p.length ≤ t.length) : boyer_moore_search t p = matchOffsets t p := by
  rw [boyer_moore_search, if_neg h1, if_neg (by omega)]
  rw [bmGo_spec t p h1 (t.length + 2) 0 [] (by omega)]
  rw [List.nil_append]
  apply List.filter_eq_self.2
  intro o _
  simp

/-- C1: for every text and every non-empty pattern no longer than the text,
`boyer_moore_search` and `kmp_search` return the same MatchSet as the
brute-force reference `native_search`: the ascending list of all offsets
at which the pattern occurs in the text, overlapping occurrences
included. -/
theorem claim_C1_bm_kmp_native_agree (t p : List Char) (hp : p ≠ [])
    (hlen : p.length ≤ t.length) :
    boyer_moore_search t p = native_search t p ∧
    kmp_search t p = native_search t p ∧
    native_search t p = matchOffsets t p := by
  have hm : p.length ≠ 0 := by simpa using hp
  have hn := native_eq_matchOffsets t p hm
  exact ⟨(bm_eq_matchOffsets t p hm hlen).trans hn.symm,
    (kmp_eq_matchOffsets t p hm hlen).trans hn.symm, hn⟩

theorem claim_C1_bm_kmp_native_agree_witness :
    ((['A'] : List Char) ≠ [] ∧
      (['A'] : List Char).length ≤ (['A', 'B', 'A'] : List Char).length)
    ∧ (boyer_moore_search (['A', 'B', 'A']) (['A'])
          = native_search (['A', 'B', 'A']) (['A'])
      ∧ kmp_search (['A', 'B', 'A']) (['A'])
          = native_search (['A', 'B', 'A']) (['A'])
      ∧ native_search (['A', 'B', 'A']) (['A'])
          = matchOffsets (['A', 'B', 'A']) (['A'])) :=
  ⟨⟨by decide, by decide⟩,
    claim_C1_bm_kmp_native_agree (['A', 'B', 'A']) (['A']) (by decide) (by decide)⟩

theorem ccBmScan_fst (t p : List Char) (s : Nat) :
    ∀ k c, (ccBmScan t p s k c).1 = bmScan t p s k := by
  intro k
  induction k with
  | zero => intro c; rfl
  | succ k ih =>
    intro c
    rw [ccBmScan, bmScan]
    by_cases h : p.getD k default = t.getD (s + k) default
    · rw [if_pos h, if_pos h]
      exact ih (c + 1)
    · rw [if_neg h, if_neg h]

theorem ccBmGo_fst (t p : List Char) (bc : Char → Int) (gs : List Nat) :
    ∀ fuel s ms c, (ccBmGo t p bc gs fuel s ms c).1 = bmGo t p bc gs fuel s ms := by
  intro fuel
  induction fuel with
  | zero => intro s ms c; rfl
  | succ f ih =>
    intro s ms c
    rw [ccBmGo, bmGo]
    by_cases h : s + p.length ≤ t.length
    · rw [if_pos h, if_pos h]
      rcases hp2 : ccBmScan t p s p.length c with ⟨o, c2⟩
      have hs := ccBmScan_fst t p s p.length c
      rw [hp2] at hs
      rw [← hs]
      cases o with
      | none => exact ih _ _ _
      | some j => exact ih _ _ _
    · rw [if_neg h, if_neg h]

theorem cc_bm_fst (t p : List Char) :
    (count_comparisons_boyer_moore t p).1 = boyer_moore_search t p := by
  rw [count_comparisons_boyer_moore, boyer_moore_search]
  by_cases hm : p.length = 0
  · rw [if_pos hm, if_pos hm]
  · by_cases hn : t.length < p.length
    · rw [if_neg hm, if_neg hm, if_pos hn, if_pos hn]
    · rw [if_neg hm, if_neg hm, if_neg hn, if_neg hn]
      exact ccBmGo_fst t p _ _ (t.length + 2) 0 [] 0

/-- C8: each instrumented variant returns exactly the match list of its
uninstrumented counterpart, paired with a (trivially non-negative)
comparison count: `count_comparisons_boyer_moore` yields the matches of
`boyer_moore_search`, `count_comparisons_kmp` those of `kmp_search`, and
`count_comparisons_levenshtein` those of `levenshtein_search_optimized`,
for every text, pattern and maxDistance. -/
theorem claim_C8_instrumented_agree (t p : List Char) (d : Int) :
    (count_comparisons_boyer_moore t p).1 = boyer_moore_search t p ∧
    (count_comparisons_kmp t p).1 = kmp_search t p ∧
    (count_comparisons_levenshtein t p d).1 = levenshtein_search_optimized t p d ∧
    0 ≤ (count_comparisons_boyer_moore t p).2 ∧
    0 ≤ (count_comparisons_kmp t p).2 ∧
    0 ≤ (count_comparisons_levenshtein t p d).2 :=
  ⟨cc_bm_fst t p, cc_kmp_fst t p, cc_lev_fst t p d,
    Nat.zero_le _, Nat.zero_le _, Nat.zero_le _⟩

/-- C7 (failing-input evaluation): the banded strategy does not always
return a MatchSet.  At text "AAA", pattern "A", maxDistance 0 the sentinel
loop `for j in range(1, start_j)` of row i = 3 assigns `curr[2]` in a row
of length 2, an uncaught IndexError (modelled as `none`), so the call
aborts instead of returning an ascending list of in-range offsets as the
claim requires of every public search operation. -/
theorem claim_C7_failing_input :
    levenshtein_search_diagonal (['A', 'A', 'A']) (['A']) 0 = none := by decide


theorem levR_nil (ys : List Char) : levR [] ys = ys.length := by
  rw [levR]

theorem levR_cons_nil (x : Char) (xs : List Char) : levR (x :: xs) [] = xs.length + 1 := by
  rw [levR]

theorem levR_cons_cons (x y : Char) (xs ys : List Char) :
    levR (x :: xs) (y :: ys) =
      min (levR xs (y :: ys) + 1) (min (levR (x :: xs) ys + 1) (levR xs ys + levCost x y)) := by
  rw [levR]

theorem levR_nil_right (xs : List Char) : levR xs [] = xs.length := by
  cases xs with
  | nil => rw [levR_nil]
  | cons x xs2 => rw [levR_cons_nil, List.length_cons]

theorem levCost_self (x : Char) : levCost x x = 0 := by
  rw [levCost, if_pos rfl]

theorem levCost_comm (x y : Char) : levCost x y = levCost y x := by
  rw [levCost, levCost]
  by_cases h : x = y
  · rw [if_pos h, if_pos h.symm]
  · rw [if_neg h, if_neg (fun h2 => h h2.symm)]

theorem levCost_tri (x y z : Char) : levCost x z ≤ levCost x y + levCost y z := by
  rw [levCost, levCost, levCost]
  by_cases h1 : x = y
  · by_cases h2 : y = z
    · rw [if_pos h1, if_pos h2, if_pos (h1.trans h2)]
    · rw [if_pos h1, if_neg h2]
      split <;> omega
  · by_cases h2 : y = z
    · rw [if_neg h1, if_pos h2]
      split <;> omega
    · rw [if_neg h1, if_neg h2]
      split <;> omega

theorem editN_cast {n n2 : Nat} {a b : List Char} (h : n = n2) (e : EditN n a b) :
    EditN n2 a b := h ▸ e

theorem editN_ins_all : ∀ ys : List Char, EditN ys.length [] ys := by
  intro ys
  induction ys with
  | nil => exact EditN.nil
  | cons y ys ih => exact EditN.ins y ih

theorem editN_del_all : ∀ xs : List Char, EditN xs.length xs [] := by
  intro xs
  induction xs with
  | nil => exact EditN.nil
  | cons x xs ih => exact EditN.del x ih

theorem editN_levR : ∀ (N : Nat) (a b : List Char), a.length + b.length ≤ N →
    EditN (levR a b) a b := by
  intro N
  induction N with
  | zero =>
    intro a b hN
    have ha : a = [] := List.eq_nil_of_length_eq_zero (by omega)
    have hb : b = [] := List.eq_nil_of_length_eq_zero (by omega)
    subst ha
    subst hb
    rw [levR_nil]
    exact EditN.nil
  | succ N ih =>
    intro a b hN
    cases a with
    | nil =>
      rw [levR_nil]
      exact editN_ins_all b
    | cons x xs =>
      cases b with
      | nil =>
        rw [levR_cons_nil]
        exact EditN.del x (editN_del_all xs)
      | cons y ys =>
        rw [levR_cons_cons]
        simp only [List.length_cons] at hN
        have h1 := ih xs (y :: ys) (by simp only [List.length_cons]; omega)
        have h2 := ih (x :: xs) ys (by simp only [List.length_cons]; omega)
        have h3 := ih xs ys (by omega)
        rcases min_choice (levR xs (y :: ys) + 1)
            (min (levR (x :: xs) ys + 1) (levR xs ys + levCost x y)) with hM | hM
        · rw [hM]
          exact EditN.del x h1
        · rw [hM]
          rcases min_choice (levR (x :: xs) ys + 1) (levR xs ys + levCost x y) with hM2 | hM2
          · rw [hM2]
            exact EditN.ins y h2
          · rw [hM2]
            exact EditN.sub x y h3

theorem levR_ins_le (a : List Char) (y : Char) (b : List Char) :
    levR a (y :: b) ≤ levR a b + 1 := by
  cases a with
  | nil =>
    rw [levR_nil, levR_nil, List.length_cons]
  | cons x xs =>
    rw [levR_cons_cons]
    exact le_trans (min_le_right _ _) (min_le_left _ _)

theorem levR_del_le (x : Char) (a b : List Char) :
    levR (x :: a) b ≤ levR a b + 1 := by
  cases b with
  | nil =>
    rw [levR_cons_nil, levR_nil_right]
  | cons y ys =>
    rw [levR_cons_cons]
    exact min_le_left _ _

theorem levR_sub_le (x y : Char) (a b : List Char) :
    levR (x :: a) (y :: b) ≤ levR a b + levCost x y := by
  rw [levR_cons_cons]
  exact le_trans (min_le_right _ _) (min_le_right _ _)

theorem editN_le {n : Nat} {a b : List Char} (e : EditN n a b) : levR a b ≤ n := by
  induction e with
  | nil => rw [levR_nil]; exact le_refl _
  | ins y e ih => exact le_trans (levR_ins_le _ y _) (by omega)
  | del x e ih => exact le_trans (levR_del_le x _ _) (by omega)
  | sub x y e ih => exact le_trans (levR_sub_le x y _ _) (by omega)

theorem editN_ins_snoc (y : Char) {n : Nat} {a b : List Char} (e : EditN n a b) :
    EditN (n + 1) a (b ++ [y]) := by
  induction e with
  | nil => exact EditN.ins y EditN.nil
  | ins y2 e ih => exact EditN.ins y2 ih
  | del x e ih => exact EditN.del x ih
  | sub x y2 e ih => exact editN_cast (by omega) (EditN.sub x y2 ih)

theorem editN_del_snoc (x : Char) {n : Nat} {a b : List Char} (e : EditN n a b) :
    EditN (n + 1) (a ++ [x]) b := by
  induction e with
  | nil => exact EditN.del x EditN.nil
  | ins y e ih => exact EditN.ins y ih
  | del x2 e ih => exact EditN.del x2 ih
  | sub x2 y e ih => exact editN_cast (by omega) (EditN.sub x2 y ih)

theorem editN_sub_snoc (x y : Char) {n : Nat} {a b : List Char} (e : EditN n a b) :
    EditN (n + levCost x y) (a ++ [x]) (b ++ [y]) := by
  induction e with
  | nil => exact EditN.sub x y EditN.nil
  | ins y2 e ih => exact editN_cast (by omega) (EditN.ins y2 ih)
  | del x2 e ih => exact editN_cast (by omega) (EditN.del x2 ih)
  | sub x2 y2 e ih => exact editN_cast (by omega) (EditN.sub x2 y2 ih)

theorem editN_reverse {n : Nat} {a b : List Char} (e : EditN n a b) :
    EditN n a.reverse b.reverse := by
  induction e with
  | nil => exact EditN.nil
  | ins y e ih =>
    rw [List.reverse_cons]
    exact editN_ins_snoc y ih
  | del x e ih =>
    rw [List.reverse_cons]
    exact editN_del_snoc x ih
  | sub x y e ih =>
    rw [List.reverse_cons, List.reverse_cons]
    exact editN_sub_snoc x y ih

theorem levR_reverse (a b : List Char) : levR a b = levR a.reverse b.reverse := by
  apply le_antisymm
  · have h := editN_reverse (editN_levR (a.reverse.length + b.reverse.length)
      a.reverse b.reverse (le_refl _))
    rw [List.reverse_reverse, List.reverse_reverse] at h
    exact editN_le h
  · have h := editN_reverse (editN_levR (a.length + b.length) a b (le_refl _))
    exact editN_le h

theorem levR_snoc (x y : Char) (u v : List Char) :
    levR (u ++ [x]) (v ++ [y]) =
      min (levR u (v ++ [y]) + 1)
        (min (levR (u ++ [x]) v + 1) (levR u v + levCost x y)) := by
  have h1 : levR (u ++ [x]) (v ++ [y]) = levR (x :: u.reverse) (y :: v.reverse) := by
    rw [levR_reverse (u ++ [x]) (v ++ [y]), List.reverse_append, List.reverse_append]
    rfl
  have e1 : levR u.reverse (y :: v.reverse) = levR u (v ++ [y]) := by
    rw [levR_reverse u (v ++ [y]), List.reverse_append]
    rfl
  have e2 : levR (x :: u.reverse) v.reverse = levR (u ++ [x]) v := by
    rw [levR_reverse (u ++ [x]) v, List.reverse_append]
    rfl
  have e3 : levR u.reverse v.reverse = levR u v := (levR_reverse u v).symm
  rw [h1, levR_cons_cons, e1, e2, e3]

theorem editN_trans : ∀ (N : Nat) {a b c : List Char} {n m : Nat},
    a.length + b.length + c.length ≤ N →
    EditN n a b → EditN m b c → ∃ k, k ≤ n + m ∧ EditN k a c := by
  intro N
  induction N with
  | zero =>
    intro a b c n m hN e1 e2
    have ha : a = [] := List.eq_nil_of_length_eq_zero (by omega)
    have hb : b = [] := List.eq_nil_of_length_eq_zero (by omega)
    have hc : c = [] := List.eq_nil_of_length_eq_zero (by omega)
    subst ha
    subst hb
    subst hc
    exact ⟨0, by omega, EditN.nil⟩
  | succ N ih =>
    intro a b c n m hN e1 e2
    cases e2 with
    | nil => exact ⟨n, by omega, e1⟩
    | ins y e2' =>
      simp only [List.length_cons] at hN
      obtain ⟨k, hk, he⟩ := ih (by omega) e1 e2'
      exact ⟨k + 1, by omega, EditN.ins y he⟩
    | del x e2' =>
      simp only [List.length_cons] at hN
      cases e1 with
      | ins y e1' =>
        obtain ⟨k, hk, he⟩ := ih (by omega) e1' e2'
        exact ⟨k, by omega, he⟩
      | del z e1' =>
        simp only [List.length_cons] at hN
        obtain ⟨k, hk, he⟩ := ih (by simp only [List.length_cons]; omega) e1'
          (EditN.del x e2')
        exact ⟨k + 1, by omega, EditN.del z he⟩
      | sub z w e1' =>
        simp only [List.length_cons] at hN
        obtain ⟨k, hk, he⟩ := ih (by omega) e1' e2'
        exact ⟨k + 1, by omega, EditN.del z he⟩
    | sub x y e2' =>
      simp only [List.length_cons] at hN
      cases e1 with
      | ins w e1' =>
        obtain ⟨k, hk, he⟩ := ih (by omega) e1' e2'
        exact ⟨k + 1, by omega, EditN.ins y he⟩
      | del z e1' =>
        simp only [List.length_cons] at hN
        obtain ⟨k, hk, he⟩ := ih (by simp only [List.length_cons]; omega) e1'
          (EditN.sub x y e2')
        exact ⟨k + 1, by omega, EditN.del z he⟩
      | sub z w e1' =>
        simp only [List.length_cons] at hN
        obtain ⟨k, hk, he⟩ := ih (by omega) e1' e2'
        refine ⟨k + levCost z y, ?_, EditN.sub z y he⟩
        have htri := levCost_tri z x y
        omega

theorem levR_self (x : List Char) : levR x x = 0 := by
  induction x with
  | nil => rw [levR_nil]; rfl
  | cons a xs ih =>
    rw [levR_cons_cons]
    have h3 : levR xs xs + levCost a a = 0 := by
      rw [ih, levCost_self]
    exact Nat.eq_zero_of_le_zero
      (le_trans (min_le_right _ _) (le_trans (min_le_right _ _) (le_of_eq h3)))

theorem levR_eq_zero : ∀ (a b : List Char), levR a b = 0 → a = b := by
  intro a
  induction a with
  | nil =>
    intro b h
    rw [levR_nil] at h
    exact (List.eq_nil_of_length_eq_zero h).symm
  | cons x xs ih =>
    intro b h
    cases b with
    | nil =>
      rw [levR_cons_nil] at h
      omega
    | cons y ys =>
      rw [levR_cons_cons] at h
      rcases Nat.min_eq_zero_iff.1 h with h1 | h1
      · omega
      · rcases Nat.min_eq_zero_iff.1 h1 with h2 | h2
        · omega
        · have hc : levCost x y = 0 := by omega
          have hr : levR xs ys = 0 := by omega
          have hxy : x = y := by
            by_contra hne
            rw [levCost, if_neg hne] at hc
            omega
          rw [hxy, ih ys hr]

theorem levR_comm_aux : ∀ (N : Nat) (a b : List Char), a.length + b.length ≤ N →
    levR a b = levR b a := by
  intro N
  induction N with
  | zero =>
    intro a b hN
    have ha : a = [] := List.eq_nil_of_length_eq_zero (by omega)
    have hb : b = [] := List.eq_nil_of_length_eq_zero (by omega)
    subst ha
    subst hb
    rfl
  | succ N ih =>
    intro a b hN
    cases a with
    | nil => rw [levR_nil, levR_nil_right]
    | cons x xs =>
      cases b with
      | nil => rw [levR_nil, levR_nil_right]
      | cons y ys =>
        simp only [List.length_cons] at hN
        rw [levR_cons_cons, levR_cons_cons]
        rw [ih xs (y :: ys) (by simp only [List.length_cons]; omega),
          ih (x :: xs) ys (by simp only [List.length_cons]; omega),
          ih xs ys (by omega), levCost_comm]
        exact min_left_comm _ _ _

theorem levR_comm (a b : List Char) : levR a b = levR b a :=
  levR_comm_aux (a.length + b.length) a b (le_refl _)

theorem levR_triangle (a b c : List Char) : levR a c ≤ levR a b + levR b c := by
  obtain ⟨k, hk, he⟩ := editN_trans (a.length + b.length + c.length)
    (le_refl _) (editN_levR (a.length + b.length) a b (le_refl _))
    (editN_levR (b.length + c.length) b c (le_refl _))
  exact le_trans (editN_le he) hk




theorem optRowGo_spec (ai : Char) (u : List Char) :
    ∀ (bs : List Char) (prest : List Nat) (vpre : List Char) (left : Nat),
      prest.length = bs.length + 1 →
      (∀ j, j ≤ bs.length → prest.getD j 0 = levR u (vpre ++ bs.take j)) →
      left = levR (u ++ [ai]) vpre →
      (optRowGo ai bs prest left).length = bs.length ∧
      ∀ j, j < bs.length → (optRowGo ai bs prest left).getD j 0
        = levR (u ++ [ai]) (vpre ++ bs.take (j + 1)) := by
  intro bs
  induction bs with
  | nil =>
    intro prest vpre left _ _ _
    refine ⟨by rw [optRowGo]; simp, ?_⟩
    intro j hj
    simp at hj
  | cons bj bs ih =>
    intro prest vpre left hlen hv hleft
    cases prest with
    | nil => simp at hlen
    | cons diag prest =>
      have hdiag : diag = levR u vpre := by
        have := hv 0 (by omega)
        simpa using this
      have hlen2 : prest.length = bs.length + 1 := by
        simp only [List.length_cons] at hlen
        omega
      have hhead : prest.headD 0 = levR u (vpre ++ [bj]) := by
        have h1 := hv 1 (by simp only [List.length_cons]; omega)
        cases prest with
        | nil => simp at hlen2
        | cons p2 prest2 =>
          simp only [List.getD_cons_succ, List.getD_cons_zero] at h1
          simp only [List.headD_cons]
          rw [h1]
          simp
      have hval : min (prest.headD 0 + 1) (min (left + 1) (diag + levCost ai bj))
          = levR (u ++ [ai]) (vpre ++ [bj]) := by
        rw [levR_snoc, hhead, hleft, hdiag]
      rw [optRowGo]
      have hrec := ih prest (vpre ++ [bj])
        (min (prest.headD 0 + 1) (min (left + 1) (diag + levCost ai bj)))
        hlen2
        (by
          intro j hj
          have h2 := hv (j + 1) (by simp only [List.length_cons]; omega)
          simp only [List.getD_cons_succ] at h2
          rw [h2]
          simp only [List.take_cons, List.append_assoc]
          rfl)
        hval
      refine ⟨?_, ?_⟩
      · simp only [List.length_cons, hrec.1]
      · intro j hj
        cases j with
        | zero =>
          simp only [List.getD_cons_zero]
          rw [hval]
          simp
        | succ j2 =>
          simp only [List.getD_cons_succ]
          rw [hrec.2 j2 (by simp only [List.length_cons] at hj; omega)]
          simp only [List.take_cons, List.append_assoc]
          rfl

theorem optRowsGo_spec (pattern : List Char) :
    ∀ (srest u : List Char) (prev : List Nat),
      prev.length = pattern.length + 1 →
      (∀ j, j ≤ pattern.length → prev.getD j 0 = levR u (pattern.take j)) →
      (optRowsGo pattern srest prev (u.length + 1)).length = pattern.length + 1 ∧
      ∀ j, j ≤ pattern.length →
        (optRowsGo pattern srest prev (u.length + 1)).getD j 0
          = levR (u ++ srest) (pattern.take j) := by
  intro srest
  induction srest with
  | nil =>
    intro u prev hlen hv
    rw [optRowsGo]
    refine ⟨hlen, ?_⟩
    intro j hj
    rw [hv j hj, List.append_nil]
  | cons si srest ih =>
    intro u prev hlen hv
    rw [optRowsGo]
    have hrow := optRowGo_spec si u pattern prev [] (u.length + 1) hlen
      (by
        intro j hj
        rw [hv j hj]
        simp)
      (by rw [levR_nil_right, List.length_append, List.length_cons, List.length_nil])
    have hstep := ih (u ++ [si]) ((u.length + 1) :: optRowGo si pattern prev (u.length + 1))
      (by simp only [List.length_cons, hrow.1])
      (by
        intro j hj
        cases j with
        | zero =>
          simp only [List.getD_cons_zero, List.take_zero]
          rw [levR_nil_right, List.length_append, List.length_cons, List.length_nil]
        | succ j2 =>
          simp only [List.getD_cons_succ]
          rw [hrow.2 j2 (by omega)]
          simp)
    have harg : (u ++ [si]).length + 1 = u.length + 1 + 1 := by
      rw [List.length_append, List.length_cons, List.length_nil]
    rw [harg] at hstep
    refine ⟨hstep.1, ?_⟩
    intro j hj
    rw [hstep.2 j hj]
    simp

theorem getD_range (n k : Nat) (hk : k < n) : (List.range n).getD k 0 = k := by
  rw [List.getD_eq_getElem?_getD, List.getElem?_range hk]
  rfl

theorem optWindowDist_eq_levR (sub pattern : List Char) :
    optWindowDist sub pattern = levR sub pattern := by
  rw [optWindowDist]
  have h := optRowsGo_spec pattern sub [] (List.range (pattern.length + 1))
    (by rw [List.length_range])
    (by
      intro j hj
      rw [getD_range _ _ (by omega), levR_nil, List.length_take]
      omega)
  have h2 := h.2 pattern.length (le_refl _)
  simp only [List.length_nil, List.nil_append, List.take_length] at h2
  exact h2

theorem levenshtein_eq_levR (a b : List Char) : levenshtein_distance a b = levR a b := by
  by_cases ha : a.length = 0
  · rw [levenshtein_distance, if_pos ha]
    have ha2 : a = [] := List.eq_nil_of_length_eq_zero ha
    rw [ha2, levR_nil]
  · rw [levenshtein_distance_eq_optWindowDist a b ha, optWindowDist_eq_levR]

/-- C5: `levenshtein_distance` is a metric on strings: the distance of a
string to itself is 0 and the distance is 0 only for equal arguments; it
is symmetric; and it satisfies the triangle inequality. -/
theorem claim_C5_metric (x a b c : List Char) :
    levenshtein_distance x x = 0 ∧
    (levenshtein_distance a b = 0 ↔ a = b) ∧
    levenshtein_distance a b = levenshtein_distance b a ∧
    levenshtein_distance a c ≤ levenshtein_distance a b + levenshtein_distance b c := by
  simp only [levenshtein_eq_levR]
  refine ⟨levR_self x,
    ⟨fun h => levR_eq_zero a b h, fun h => by rw [h]; exact levR_self b⟩,
    levR_comm a b, levR_triangle a b c⟩

end SubSolvers
